import Mathlib

/-!
# Inline-assembly semantic bridge (`lib/Sema/AsmParserCallback.cpp`)

A shallow embedding of `AsmParserCallback` (token lookup, the identifier /
member-access chain parser, location translation) together with the properties
of the natural-language specification that concern it.

Conventions of the embedding:

* `ArrayRef<T>` / `SmallVector<T>` are `List T`;
* a `SourceLoc` is the address it wraps, an `Int`;
* a `StringRef` is its `Data` address and its `Length`;
* `unsigned` values are `Nat`, taken `% 2 ^ 32` where the source narrows a
  pointer difference or subtracts; token counts are left unbounded (a window
  never holds `2 ^ 32` tokens);
* `assert`s are checked: a failed assertion or an out-of-bounds read makes the
  function return `Except.error`;
* the host type checker and diagnostic engine are collaborators outside this
  component: every call made to them is recorded, in order, as an `Event`.
-/

namespace AsmBridge

/-! ## Data model -/

/-- Token kinds (`swift::tok`); only `tok::identifier` and `tok::period` are ever
tested by this component, every other kind is `other`. -/
inductive tok where
  | identifier
  | period
  | other
  deriving DecidableEq, Repr

/-- A source location: the address wrapped by `swift::SourceLoc`. -/
abbrev SourceLoc := Int

/-- Modelled from the spec: the `Token` class (`swift/Parse/Token.h`) is declared
outside the sources at hand; a token is "a lexical unit of the host source with a
start location, byte length, and syntactic kind", plus the text that
`getText()` returns. -/
structure Token where
  Kind : tok
  Text : String
  Loc : SourceLoc
  Length : Nat
  deriving DecidableEq, Repr

instance : Inhabited Token := ⟨⟨tok.other, "", 0, 0⟩⟩

/-- `Token::is`. -/
def Token.is (t : Token) (k : tok) : Bool := decide (t.Kind = k)

/-- `Token::isNot`. -/
def Token.isNot (t : Token) (k : tok) : Bool := !(t.is k)

/-- `Token::getLoc`. -/
def Token.getLoc (t : Token) : SourceLoc := t.Loc

/-- `Token::getText`. -/
def Token.getText (t : Token) : String := t.Text

/-- `Token::getLength`. -/
def Token.getLength (t : Token) : Nat := t.Length

/-- `DeclRefKind`; the parser only ever builds ordinary references. -/
inductive DeclRefKind where
  | Ordinary
  deriving DecidableEq, Repr

/-- The two expression nodes built by `parseIdentifier`:
`UnresolvedDeclRefExpr(name, kind, nameLoc)` and
`UnresolvedDotExpr(base, dotLoc, name, nameLoc, implicit)`. -/
inductive Expr where
  | UnresolvedDeclRefExpr (name : String) (kind : DeclRefKind) (nameLoc : SourceLoc)
  | UnresolvedDotExpr (base : Expr) (dotLoc : SourceLoc) (name : String)
      (nameLoc : SourceLoc) (implicit : Bool)
  deriving DecidableEq, Repr

/-- Diagnostics recorded by the modelled code: those handed to `TC.diagnose`
(with their arguments) and the one `performSubmoduleCreation` puts on a
declaration. -/
inductive Diag where
  | expected_member_name (loc : SourceLoc)
  | asm_parsing_failed (loc : SourceLoc) (message : String)
  | asm_target_lookup_failed (loc : SourceLoc) (triple : String)
  | submodule_not_at_top (loc : SourceLoc)
  deriving DecidableEq, Repr

/-- Calls made to the host type checker, in program order.  The annotations the
checker attaches to an expression in place are not part of this model: a
`typeCheckExpression` event carries the expression it was called on. -/
inductive Event where
  | typeCheckExpression (e : Expr)
  | diagnose (d : Diag)
  deriving DecidableEq, Repr

/-- The diagnostics among a sequence of events, in order. -/
def diagnostics : List Event → List Diag
  | [] => []
  | Event.diagnose d :: es => d :: diagnostics es
  | Event.typeCheckExpression _ :: es => diagnostics es

/-- The expressions handed to the type checker among a sequence of events. -/
def typeChecked : List Event → List Expr
  | [] => []
  | Event.typeCheckExpression e :: es => e :: typeChecked es
  | Event.diagnose _ :: es => typeChecked es

/-- Ways in which a checked assertion or a bounds check can fail. -/
inductive Defect where
  | outsideAsmString
  | pastTheEnd
  | notOnBoundary
  | indexOutOfBounds
  deriving DecidableEq, Repr

/-! ## `parseIdentifier` -/

/-- The loop of the `SWIFT_DEFER` block: walk `lineToks`, adding one to
`toksConsumed` per token, until a token whose location is `loc` is met. -/
def countUntilLoc (loc : SourceLoc) : List Token → Nat → Nat
  | [], toksConsumed => toksConsumed
  | t :: rest, toksConsumed =>
    if t.getLoc ≠ loc then countUntilLoc loc rest (toksConsumed + 1)
    else toksConsumed

/-- The `SWIFT_DEFER` block of `parseIdentifier`: the value of `toksConsumed`
at scope exit, from the whole window, what is left of it, and the value the
caller passed in. -/
def deferredToksConsumed (lineToks tmpLineToks : List Token) (toksConsumed : Nat) : Nat :=
  match tmpLineToks with
  | [] => lineToks.length
  | t :: _ => countUntilLoc t.getLoc lineToks toksConsumed

/-- The `while (tmpLineToks[0].is(tok::period))` loop of `parseIdentifier`.
Returns the expression built, the window left unconsumed and the events
emitted; reading `tmpLineToks[0]` of an empty window is out of bounds. -/
def memberAccessLoop (result : Expr) :
    List Token → Except Defect (Expr × List Token × List Event)
  | [] => Except.error Defect.indexOutOfBounds
  | [t0] =>
    if t0.is tok.period then
      -- `lineSize < 2`: diagnose at `tmpLineToks.front()` and `break`
      Except.ok (result, [t0], [Event.diagnose (Diag.expected_member_name t0.getLoc)])
    else Except.ok (result, [t0], [])
  | t0 :: t1 :: rest =>
    if t0.is tok.period then
      if t1.isNot tok.identifier then
        -- `tmpLineToks[1].isNot(tok::identifier)`: diagnose and `break`
        Except.ok (result, t0 :: t1 :: rest,
          [Event.diagnose (Diag.expected_member_name t0.getLoc)])
      else
        let result1 := Expr.UnresolvedDotExpr result t0.getLoc t1.getText t1.getLoc false
        -- `tmpLineToks = tmpLineToks.drop_front(2); if (tmpLineToks.size() < 2) break;`
        if rest.length < 2 then Except.ok (result1, rest, [])
        else memberAccessLoop result1 rest
    else Except.ok (result, t0 :: t1 :: rest, [])

/-- What `parseIdentifier` hands back: the returned expression, the final value
of the `toksConsumed` reference, and the calls made to the type checker. -/
structure ParseResult where
  result : Expr
  toksConsumed : Nat
  events : List Event
  deriving DecidableEq, Repr

/-- `AsmParserCallback::parseIdentifier(lineToks, firstTok, toksConsumed)`.
`lineToks.drop_front()` of an empty window is out of bounds.  The two calls of
`TC.typeCheckExpression` are recorded with the expression they are applied to;
the count of the `SWIFT_DEFER` block is taken at each exit. -/
def parseIdentifier (lineToks : List Token) (firstTok : Token) (toksConsumed : Nat) :
    Except Defect ParseResult :=
  let result := Expr.UnresolvedDeclRefExpr firstTok.getText DeclRefKind.Ordinary firstTok.getLoc
  match lineToks with
  | [] => Except.error Defect.indexOutOfBounds
  | _ :: tmpLineToks =>
    let checked := [Event.typeCheckExpression result]
    if lineToks.length = 1 then
      Except.ok ⟨result, deferredToksConsumed lineToks tmpLineToks toksConsumed, checked⟩
    else if (lineToks.getD 1 default).isNot tok.period then
      Except.ok ⟨result, deferredToksConsumed lineToks tmpLineToks toksConsumed, checked⟩
    else
      match memberAccessLoop result tmpLineToks with
      | Except.error d => Except.error d
      | Except.ok (result1, tmpLineToks1, emitted) =>
        Except.ok ⟨result1, deferredToksConsumed lineToks tmpLineToks1 toksConsumed,
          checked ++ emitted ++ [Event.typeCheckExpression result1]⟩

/-! ## Token lookup: `findTokensForString` -/

/-- `llvm::StringRef`: the address of the first byte and the length. -/
structure StringRef where
  Data : Nat
  Length : Nat
  deriving DecidableEq, Repr

/-- `StringRef::begin`. -/
def StringRef.begin (s : StringRef) : Nat := s.Data

/-- `StringRef::end` (one past the last byte). -/
def StringRef.end_ (s : StringRef) : Nat := s.Data + s.Length

/-- `StringRef::size`. -/
def StringRef.size (s : StringRef) : Nat := s.Length

/-- `StringRef::substr(Start, N)` of `llvm/ADT/StringRef.h`: the sub-string
`[Start, Start + N)`, where `Start` is clamped to the length and, when `N`
exceeds the number of bytes remaining, the whole suffix is returned. -/
def StringRef.substr (s : StringRef) (Start N : Nat) : StringRef :=
  let start := min Start s.Length
  ⟨s.Data + start, min N (s.Length - start)⟩

/-- The members of `AsmParserCallback` that the bridge reads (`TC` and `DC`
are represented by the recorded events). -/
structure AsmParserCallback where
  Loc : SourceLoc
  AsmString : StringRef
  Toks : List Token
  TokOffsets : List Nat
  deriving DecidableEq, Repr

/-- The halving loop of `std::lower_bound` over `[first, first + len)`;
`fuel` bounds the number of iterations (`len` at least halves each time). -/
def lower_bound_loop (xs : List Nat) (value : Nat) : Nat → Nat → Nat → Nat
  | 0, first, _ => first
  | fuel + 1, first, len =>
    if len = 0 then first
    else
      let half := len / 2
      let middle := first + half
      if xs.getD middle 0 < value then
        lower_bound_loop xs value fuel (middle + 1) (len - half - 1)
      else
        lower_bound_loop xs value fuel first half

/-- `std::lower_bound(xs.begin(), xs.end(), value) - xs.begin()`: the binary
search of the C++ standard library, returning an index in `[0, xs.size()]`. -/
def lower_bound (xs : List Nat) (value : Nat) : Nat :=
  lower_bound_loop xs value xs.length 0 xs.length

/-- `unsigned firstCharOffset = str.begin() - AsmString.begin()`. -/
def firstCharOffset (cb : AsmParserCallback) (str : StringRef) : Nat :=
  (str.begin - cb.AsmString.begin) % 2 ^ 32

/-- `unsigned lastCharOffset = str.end() - AsmString.begin()`. -/
def lastCharOffset (cb : AsmParserCallback) (str : StringRef) : Nat :=
  (str.end_ - cb.AsmString.begin) % 2 ^ 32

/-- The first assertion of `findTokensForString`: `str` lies inside `AsmString`. -/
def withinAsmString (cb : AsmParserCallback) (str : StringRef) : Prop :=
  ¬ (str.begin < cb.AsmString.begin) ∧ ¬ (cb.AsmString.end_ < str.end_)

instance (cb : AsmParserCallback) (str : StringRef) : Decidable (withinAsmString cb str) := by
  unfold withinAsmString; infer_instance

/-- The collection loop of `findTokensForString`,
`for (unsigned i = firstTokIndex; i != TokOffsets.size(); i++)`, with `fuel`
the number of iterations still allowed. -/
def collectLoop (TokOffsets : List Nat) (Toks : List Token) (lastCharOffset : Nat) :
    Nat → Nat → List Token → Except Defect (List Token)
  | 0, _, tmpToks => Except.ok tmpToks
  | fuel + 1, i, tmpToks =>
    if i = TokOffsets.length then Except.ok tmpToks
    else
      match TokOffsets[i]? with
      | none => Except.error Defect.indexOutOfBounds
      | some o =>
        if o ≥ lastCharOffset then Except.ok tmpToks
        else
          match Toks[i]? with
          | none => Except.error Defect.indexOutOfBounds
          | some t => collectLoop TokOffsets Toks lastCharOffset fuel (i + 1) (tmpToks ++ [t])

/-- `AsmParserCallback::findTokensForString(str, tmpToks, firstTok, firstTokIndex)`:
returns the new contents of `tmpToks`, `*firstTok` and `firstTokIndex`. -/
def findTokensForString (cb : AsmParserCallback) (str : StringRef) (tmpToks : List Token) :
    Except Defect (List Token × Token × Nat) :=
  if ¬ withinAsmString cb str then Except.error Defect.outsideAsmString
  else
    let firstTokOffset := lower_bound cb.TokOffsets (firstCharOffset cb str)
    match cb.TokOffsets[firstTokOffset]? with
    | none => Except.error Defect.pastTheEnd
    | some o =>
      if o ≠ firstCharOffset cb str then Except.error Defect.notOnBoundary
      else
        let firstTokIndex := firstTokOffset
        match cb.Toks[firstTokIndex]? with
        | none => Except.error Defect.indexOutOfBounds
        | some firstTok =>
          match collectLoop cb.TokOffsets cb.Toks (lastCharOffset cb str)
              (cb.TokOffsets.length - firstTokIndex) firstTokIndex tmpToks with
          | Except.error d => Except.error d
          | Except.ok toks => Except.ok (toks, firstTok, firstTokIndex)

/-! ## `LookupInlineAsmIdentifier` -/

/-- `llvm::InlineAsmIdentifierInfo` as far as the bridge touches it: either
untouched, or set by `setVar(decl, isGlobalLV, size, type)`. -/
inductive InlineAsmIdentifierInfo where
  | Invalid
  | Var (decl : Expr) (isGlobalLV : Bool) (size : Nat) (type : Nat)
  deriving DecidableEq, Repr

/-- `TypeChecker::fillAsmIdentifierInfo(result, info)`. -/
def fillAsmIdentifierInfo (result : Expr) (_info : InlineAsmIdentifierInfo) :
    InlineAsmIdentifierInfo :=
  InlineAsmIdentifierInfo.Var result true 8 8

/-- Addition of two `unsigned` values. -/
def uadd (a b : Nat) : Nat := (a + b) % 2 ^ 32

/-- Subtraction of two `unsigned` values (wraps around below zero). -/
def usub (a b : Nat) : Nat := (a % 2 ^ 32 + 2 ^ 32 - b % 2 ^ 32) % 2 ^ 32

/-- What `LookupInlineAsmIdentifier` leaves behind: the `LineBuf` and `Info`
references and the calls made to the type checker. -/
structure LookupResult where
  LineBuf : StringRef
  Info : InlineAsmIdentifierInfo
  events : List Event
  deriving DecidableEq, Repr

/-- `AsmParserCallback::LookupInlineAsmIdentifier(LineBuf, Info, IsUnevaluatedContext)`. -/
def LookupInlineAsmIdentifier (cb : AsmParserCallback) (LineBuf : StringRef)
    (Info : InlineAsmIdentifierInfo) (_IsUnevaluatedContext : Bool) :
    Except Defect LookupResult :=
  match findTokensForString cb LineBuf [] with
  | Except.error d => Except.error d
  | Except.ok (lineToks, firstTok, firstTokIndex) =>
    match parseIdentifier lineToks firstTok 0 with
    | Except.error d => Except.error d
    | Except.ok r =>
      if 0 < r.toksConsumed ∧ r.toksConsumed < lineToks.length then
        let lastIndex := firstTokIndex + r.toksConsumed - 1
        match cb.TokOffsets[lastIndex]?, cb.Toks[lastIndex]?, cb.TokOffsets[firstTokIndex]? with
        | some lastOffset, some lastTok, some firstOffset =>
          let totalOffset := usub (uadd lastOffset lastTok.getLength) firstOffset
          Except.ok ⟨LineBuf.substr 0 totalOffset, fillAsmIdentifierInfo r.result Info, r.events⟩
        | _, _, _ => Except.error Defect.indexOutOfBounds
      else
        Except.ok ⟨LineBuf, fillAsmIdentifierInfo r.result Info, r.events⟩

/-! ## `translateLocation` -/

/-- Conversion of an `unsigned` value to the `int` parameter of
`SourceLoc::getAdvancedLoc` (two's complement). -/
def toInt32 (v : Nat) : Int :=
  if v % 2 ^ 32 < 2 ^ 31 then ((v % 2 ^ 32 : Nat) : Int) else ((v % 2 ^ 32 : Nat) : Int) - 2 ^ 32

/-- `SourceLoc::getAdvancedLoc(int ByteOffset)`. -/
def getAdvancedLoc (loc : SourceLoc) (ByteOffset : Int) : SourceLoc := loc + ByteOffset

/-- `AsmParserCallback::translateLocation(SM, SMLoc)`; `bufferStart` is
`buf->getBufferStart()` of the buffer of `SM` that contains `SMLoc`.  The value
`*tokOffsetPtr` is read before the bound check and is used only when
`tokIndex < Toks.size()`. -/
def translateLocation (cb : AsmParserCallback) (bufferStart SMLoc : Nat) : SourceLoc :=
  let offset := (SMLoc - bufferStart) % 2 ^ 32
  let tokIndex := lower_bound cb.TokOffsets offset
  let tokOffset := cb.TokOffsets.getD tokIndex 0
  if tokIndex < cb.Toks.length then
    let loc := (cb.Toks.getD tokIndex default).getLoc
    getAdvancedLoc loc (toInt32 (usub offset tokOffset))
  else cb.Loc

/-! ## `handleDiagnostic` and the unsupported callbacks -/

/-- `llvm::SMDiagnostic` as far as the relay reads it: the start of the buffer
of `getSourceMgr()` that contains the location, `getLoc().getPointer()` and
`getMessage()`. -/
structure SMDiagnostic where
  bufferStart : Nat
  Loc : Nat
  Message : String
  deriving DecidableEq, Repr

/-- What a call of a callback leaves behind: its return value, the members of
the callback object after the call, and the calls made to the type checker. -/
structure Effect (α : Type) where
  ret : α
  self : AsmParserCallback
  events : List Event

/-- `AsmParserCallback::handleDiagnostic(D)`. -/
def handleDiagnostic (cb : AsmParserCallback) (D : SMDiagnostic) : Effect Unit :=
  let loc := translateLocation cb D.bufferStart D.Loc
  ⟨(), cb, [Event.diagnose (Diag.asm_parsing_failed loc D.Message)]⟩

/-- `AsmParserCallback::LookupInlineAsmField(Base, Member, Offset)`: the return
value and the value of the `Offset` reference afterwards. -/
def LookupInlineAsmField (cb : AsmParserCallback) (_Base _Member : String) (Offset : Nat) :
    Effect (Bool × Nat) :=
  ⟨(false, Offset), cb, []⟩

/-- `AsmParserCallback::LookupInlineAsmLabel(Identifier, SM, Location, Create)`. -/
def LookupInlineAsmLabel (cb : AsmParserCallback) (_Identifier : String) (_Location : Nat)
    (_Create : Bool) : Effect String :=
  ⟨"", cb, []⟩

/-! ## `TypeChecker::parseAsmString` -/

/-- The asm statement as far as `parseAsmString` reads it: `getLoc()` and
`getAsmString()`. -/
structure AsmStmt where
  Loc : SourceLoc
  AsmString : StringRef
  deriving DecidableEq, Repr

/-- The output parameters of `parseAsmString`. -/
structure AsmOutputs where
  OutputCount : Nat
  InputCount : Nat
  AsmStringIr : String
  Constraints : List String
  Clobbers : List String
  Exprs : List (Expr × Bool)
  deriving DecidableEq, Repr

/-- The LLVM collaborators of `parseAsmString`, taken as parameters:
`llvm::TargetRegistry::lookupTarget` (a target is represented by a number) and
the sub-parser configured for that target, whose entry point `parseMSInlineAsm`
returns its failure flag, the output parameters as it leaves them, and the calls
it made to the type checker through the callback. -/
structure AsmBackend where
  lookupTarget : String → Option Nat
  parseMSInlineAsm : Nat → AsmStmt → AsmParserCallback → AsmOutputs →
    Bool × AsmOutputs × List Event

/-- What `parseAsmString` leaves behind: its return value (`true` is the failure
signal), the output parameters, the calls made to the type checker and the
number of times the entry point of the sub-parser was invoked. -/
structure ParseAsmResult where
  failed : Bool
  outputs : AsmOutputs
  events : List Event
  subParserRuns : Nat
  deriving DecidableEq, Repr

/-- `TypeChecker::parseAsmString(AS, callback, OutputCount, InputCount,
AsmStringIr, Constraints, Clobbers, Exprs)`, with the target triple
`Context.LangOpts.Target` and the LLVM side as parameters.  The value returned
by `parseMSInlineAsm` is not used. -/
def parseAsmString (backend : AsmBackend) (triple : String) (AS : AsmStmt)
    (callback : AsmParserCallback) (outputs : AsmOutputs) : ParseAsmResult :=
  match backend.lookupTarget triple with
  | none =>
    ⟨true, outputs, [Event.diagnose (Diag.asm_target_lookup_failed AS.Loc triple)], 0⟩
  | some target =>
    let parsed := backend.parseMSInlineAsm target AS callback outputs
    ⟨false, parsed.2.1, parsed.2.2, 1⟩

/-! ## `performSubmoduleCreation` (`lib/Sema/Submodules.cpp`) -/

/-- A top-level declaration: a `SubmoduleDecl` with its name, or any other
declaration; `loc` is where a diagnostic on the declaration is put. -/
inductive Decl where
  | SubmoduleDecl (name : String) (loc : SourceLoc)
  | other (loc : SourceLoc)
  deriving DecidableEq, Repr

/-- A file unit: an identity and what `getTopLevelDecls` returns. -/
structure FileUnit where
  id : Nat
  topLevelDecls : List Decl
  deriving DecidableEq, Repr

/-- A module made by `ModuleDecl::create` in `performSubmoduleCreation`: its
name, the resilience strategy copied from the parent, and its files. -/
structure Submodule where
  Name : String
  ResilienceStrategy : Nat
  Files : List FileUnit
  deriving DecidableEq, Repr

/-- Modelled from the spec: `ModuleDecl` is declared outside the sources at
hand; the module whose files are partitioned "into sub-modules based on a leading
declaration" is represented by what `performSubmoduleCreation` reads and writes:
its files, its resilience strategy and its list of submodules. -/
structure ModuleDecl where
  Name : String
  ResilienceStrategy : Nat
  Files : List FileUnit
  Submodules : List Submodule
  deriving DecidableEq, Repr

/-- `entry->getValue()->addFile(*file)` for the entry of `submoduleMap` with key
`name`.  The map and the modules it points to are represented together by the
list of modules created so far, which holds one module per key. -/
def addFileTo (submodules : List Submodule) (name : String) (file : FileUnit) : List Submodule :=
  submodules.map (fun s => if s.Name = name then { s with Files := s.Files ++ [file] } else s)

/-- How the loop over the top-level declarations of one file ends: `return`
after a diagnostic, or the end of the loop with the value of `isSubmoduleFile`.
Both carry the modules created so far and the `setParent` calls made. -/
inductive DeclScan where
  | aborted (submodules : List Submodule) (reparented : List (FileUnit × String)) (d : Diag)
  | finished (isSubmoduleFile : Bool) (submodules : List Submodule)
      (reparented : List (FileUnit × String))
  deriving DecidableEq, Repr

/-- The loop `for (auto i : indices(topLevelDecls))` of `performSubmoduleCreation`
for one file, from index `i` on. -/
def scanTopLevelDecls (module : ModuleDecl) (file : FileUnit) :
    List Decl → Nat → Bool → List Submodule → List (FileUnit × String) → DeclScan
  | [], _, isSubmoduleFile, submodules, reparented =>
    DeclScan.finished isSubmoduleFile submodules reparented
  | Decl.other _ :: decls, i, isSubmoduleFile, submodules, reparented =>
    -- `if (!submoduleDecl) continue;`
    scanTopLevelDecls module file decls (i + 1) isSubmoduleFile submodules reparented
  | Decl.SubmoduleDecl name loc :: decls, i, _, submodules, reparented =>
    if i ≠ 0 then
      DeclScan.aborted submodules reparented (Diag.submodule_not_at_top loc)
    else if submodules.any (fun s => decide (s.Name = name)) then
      -- already created: add the file and `break`
      DeclScan.finished true (addFileTo submodules name file) reparented
    else
      -- a new submodule; `continue`
      scanTopLevelDecls module file decls (i + 1) true
        (submodules ++ [⟨name, module.ResilienceStrategy, [file]⟩])
        (reparented ++ [(file, name)])

/-- How the loop over the files ends: `return` after a diagnostic, or the end
of the loop with `mainModuleFiles`. -/
inductive FileScan where
  | aborted (submodules : List Submodule) (reparented : List (FileUnit × String)) (d : Diag)
  | finished (mainModuleFiles : List FileUnit) (submodules : List Submodule)
      (reparented : List (FileUnit × String))
  deriving DecidableEq, Repr

/-- The loop `for (auto file : module->getFiles())` of `performSubmoduleCreation`. -/
def scanFiles (module : ModuleDecl) :
    List FileUnit → List FileUnit → List Submodule → List (FileUnit × String) → FileScan
  | [], mainModuleFiles, submodules, reparented =>
    FileScan.finished mainModuleFiles submodules reparented
  | file :: files, mainModuleFiles, submodules, reparented =>
    match scanTopLevelDecls module file file.topLevelDecls 0 false submodules reparented with
    | DeclScan.aborted submodules1 reparented1 d => FileScan.aborted submodules1 reparented1 d
    | DeclScan.finished isSubmoduleFile submodules1 reparented1 =>
      scanFiles module files
        (if isSubmoduleFile then mainModuleFiles else mainModuleFiles ++ [file])
        submodules1 reparented1

/-- What `performSubmoduleCreation` leaves behind: the module, the diagnostics
emitted and the `file->setParent(submodule)` calls made. -/
structure SubmoduleCreation where
  module : ModuleDecl
  diags : List Diag
  reparented : List (FileUnit × String)
  deriving DecidableEq, Repr

/-- `swift::performSubmoduleCreation(module)`.  Every module created was added
to the module by `addSubmodule` when it was made, also when the function returns
early; the file list is replaced only at the end. -/
def performSubmoduleCreation (module : ModuleDecl) : SubmoduleCreation :=
  match scanFiles module module.Files [] [] [] with
  | FileScan.aborted submodules reparented d =>
    ⟨{ module with Submodules := module.Submodules ++ submodules }, [d], reparented⟩
  | FileScan.finished mainModuleFiles submodules reparented =>
    ⟨{ module with Files := mainModuleFiles, Submodules := module.Submodules ++ submodules },
      [], reparented⟩

/-! ### Concrete windows used as test inputs -/

/-- Identifier token `x` at location `100`. -/
def tokX : Token := ⟨tok.identifier, "x", 100, 1⟩
/-- Period token at location `101`. -/
def tokDot1 : Token := ⟨tok.period, ".", 101, 1⟩
/-- Identifier token `y` at location `102`. -/
def tokY : Token := ⟨tok.identifier, "y", 102, 1⟩
/-- Period token at location `103`. -/
def tokDot2 : Token := ⟨tok.period, ".", 103, 1⟩
/-- Identifier token `z` at location `104`. -/
def tokZ : Token := ⟨tok.identifier, "z", 104, 1⟩

/-- Four tokens at offsets 0, 4, 8, 12 whose source locations are not a common
base plus the offset (as when the assembly text is not one contiguous piece of
the source). -/
def cbSkew : AsmParserCallback :=
  ⟨9999, ⟨1000, 16⟩,
   [⟨tok.identifier, "aa", 100, 2⟩, ⟨tok.identifier, "bb", 204, 2⟩,
    ⟨tok.identifier, "cc", 308, 2⟩, ⟨tok.identifier, "dd", 412, 2⟩],
   [0, 4, 8, 12]⟩

/-- Two tokens at offsets 2 and 6: the assembly text starts with two blanks. -/
def cbLead : AsmParserCallback :=
  ⟨9999, ⟨1000, 8⟩,
   [⟨tok.identifier, "ab", 5002, 2⟩, ⟨tok.identifier, "cd", 5006, 2⟩],
   [2, 6]⟩

/-- Empty output parameters. -/
def noOutputs : AsmOutputs := ⟨0, 0, "", [], [], []⟩

/-- An LLVM side whose registry knows no target. -/
def backendNoTarget : AsmBackend := ⟨fun _ => none, fun _ _ _ outputs => (false, outputs, [])⟩

/-- An LLVM side whose registry knows every triple and whose sub-parser reports
a fatal error after emitting one diagnostic through the relay. -/
def backendFatal : AsmBackend :=
  ⟨fun _ => some 0,
   fun _ AS _ outputs => (true, outputs, [Event.diagnose (Diag.asm_parsing_failed AS.Loc "bad")])⟩

/-- Three tokens `abc`, `.`, `de` at offsets 0, 4, 5 of an assembly string at address 1000. -/
def cbDemo : AsmParserCallback :=
  ⟨9999, ⟨1000, 8⟩,
   [⟨tok.identifier, "abc", 5000, 3⟩, ⟨tok.period, ".", 5004, 1⟩, ⟨tok.identifier, "de", 5005, 2⟩],
   [0, 4, 5]⟩

/-! ## Vocabulary of the specification -/

/-- The tokens `p₁ i₁ p₂ i₂ …` of a list of (period, identifier) pairs. -/
def linkTokens : List (Token × Token) → List Token
  | [] => []
  | l :: ls => l.1 :: l.2 :: linkTokens ls

/-- One member-access link on top of `base`: the period's location, the
identifier's text and location. -/
def dotLink (base : Expr) (period identifier : Token) : Expr :=
  Expr.UnresolvedDotExpr base period.getLoc identifier.getText identifier.getLoc false

/-- The bare unresolved reference built from a token's text and location. -/
def baseRef (t : Token) : Expr :=
  Expr.UnresolvedDeclRefExpr t.getText DeclRefKind.Ordinary t.getLoc

/-- The left-nested chain: `base` followed by the given links in order. -/
def chainOf (base : Expr) : List (Token × Token) → Expr
  | [] => base
  | l :: ls => chainOf (dotLink base l.1 l.2) ls

/-- The window has a period at index `1 + 2j` and an identifier at index `2 + 2j`. -/
def isLinkAt (w : List Token) (j : Nat) : Prop :=
  (w[1 + 2 * j]?).map Token.Kind = some tok.period ∧
  (w[2 + 2 * j]?).map Token.Kind = some tok.identifier

instance (w : List Token) (j : Nat) : Decidable (isLinkAt w j) := by
  unfold isLinkAt; infer_instance

/-- The base reference to the window's first token followed by the links at
indices `(1, 2), (3, 4), …, (2k - 1, 2k)` of the window, left-nested. -/
def chainExpr (w : List Token) : Nat → Expr
  | 0 => baseRef (w.getD 0 default)
  | k + 1 => dotLink (chainExpr w k) (w.getD (1 + 2 * k) default) (w.getD (2 + 2 * k) default)

/-- Number of leading (period, identifier) pairs of a token list. -/
def chainLength : List Token → Nat
  | p :: i :: rest =>
    if p.Kind = tok.period ∧ i.Kind = tok.identifier then chainLength rest + 1 else 0
  | _ => 0

/-- `base` followed by the first `k` (period, identifier) pairs of a token list. -/
def addLinks (base : Expr) : List Token → Nat → Expr
  | p :: i :: rest, k + 1 => addLinks (dotLink base p i) rest k
  | _, _ => base

/-- The declaration is a `SubmoduleDecl`. -/
def Decl.isSubmoduleDecl : Decl → Bool
  | Decl.SubmoduleDecl _ _ => true
  | Decl.other _ => false

/-- The submodule named by the first top-level declaration of a file, when that
declaration is a submodule declaration. -/
def leadingSubmodule (f : FileUnit) : Option String :=
  match f.topLevelDecls with
  | Decl.SubmoduleDecl name _ :: _ => some name
  | _ => none

/-- The file has a submodule declaration at a top-level position other than the
first. -/
def hasMisplacedSubmoduleDecl (f : FileUnit) : Prop :=
  ∃ d ∈ f.topLevelDecls.tail, d.isSubmoduleDecl = true

instance (f : FileUnit) : Decidable (hasMisplacedSubmoduleDecl f) := by
  unfold hasMisplacedSubmoduleDecl; infer_instance

/-- The distinct names of a list, in order of first occurrence. -/
def firstOccurrences : List String → List String
  | [] => []
  | n :: ns => n :: (firstOccurrences ns).filter (fun m => decide (m ≠ n))

/-- The files among `files` whose first declaration names the submodule `n`. -/
def filesOf (files : List FileUnit) (n : String) : List FileUnit :=
  files.filter (fun f => decide (leadingSubmodule f = some n))

/-- The files among `files` whose first declaration is not a submodule
declaration. -/
def mainFilesOf (files : List FileUnit) : List FileUnit :=
  files.filter (fun f => decide (leadingSubmodule f = none))

/-- One submodule per distinct leading submodule name of `files`, in order of
first occurrence, each with the files that name it. -/
def submodulesOf (module : ModuleDecl) (files : List FileUnit) : List Submodule :=
  (firstOccurrences (files.filterMap leadingSubmodule)).map
    (fun n => ⟨n, module.ResilienceStrategy, filesOf files n⟩)

/-- File of the submodule `X`. -/
def fileX1 : FileUnit := ⟨1, [Decl.SubmoduleDecl "X" 10, Decl.other 11]⟩
/-- File of the main module. -/
def fileMain : FileUnit := ⟨2, [Decl.other 20]⟩
/-- A second file of the submodule `X`, with a submodule declaration at index 2. -/
def fileX2 : FileUnit := ⟨3, [Decl.SubmoduleDecl "X" 30, Decl.other 31, Decl.SubmoduleDecl "Y" 32]⟩
/-- File of the submodule `Y`, with a submodule declaration at index 2. -/
def fileY : FileUnit := ⟨4, [Decl.SubmoduleDecl "Y" 40, Decl.other 41, Decl.SubmoduleDecl "Z" 42]⟩
/-- A well-formed second file of the submodule `X`. -/
def fileX3 : FileUnit := ⟨5, [Decl.SubmoduleDecl "X" 50]⟩

/-! ## Lemmas on `parseIdentifier` -/

theorem token_is_iff (t : Token) (k : tok) : t.is k = true ↔ t.Kind = k := by
  simp [Token.is]

theorem token_isNot_iff (t : Token) (k : tok) : t.isNot k = true ↔ t.Kind ≠ k := by
  simp [Token.isNot, Token.is]

theorem diagnostics_append (a b : List Event) :
    diagnostics (a ++ b) = diagnostics a ++ diagnostics b := by
  induction a with
  | nil => rfl
  | cons e es ih => cases e <;> simp [diagnostics, ih]

/-- The loop on a well-formed run of links consumes all of it silently. -/
theorem memberAccessLoop_linkTokens (links : List (Token × Token))
    (hl : ∀ l ∈ links, l.1.Kind = tok.period ∧ l.2.Kind = tok.identifier) :
    ∀ (l0 : Token × Token) (result : Expr), l0.1.Kind = tok.period → l0.2.Kind = tok.identifier →
      memberAccessLoop result (linkTokens (l0 :: links)) =
        Except.ok (chainOf result (l0 :: links), [], []) := by
  induction links with
  | nil =>
    intro l0 result h1 h2
    simp [linkTokens, memberAccessLoop, chainOf, dotLink, Token.is, Token.isNot, h1, h2]
  | cons l1 ls ih =>
    intro l0 result h1 h2
    have hl1 := hl l1 (List.mem_cons_self _ _)
    have ih1 := ih (fun l hm => hl l (List.mem_cons_of_mem _ hm)) l1
      (dotLink result l0.1 l0.2) hl1.1 hl1.2
    simp only [linkTokens] at ih1 ⊢
    rw [memberAccessLoop]
    simp [Token.is, Token.isNot, h1, h2, chainOf]
    exact ih1

theorem length_linkTokens (links : List (Token × Token)) :
    (linkTokens links).length = 2 * links.length := by
  induction links with
  | nil => rfl
  | cons l ls ih => simp [linkTokens, ih]; omega

/-- C1: on a window `x (. id)^k` whose periods and identifiers are well formed,
`parseIdentifier` returns the base reference to `x` followed by the `k` links in
window order, reports `consumed = 2k + 1` and emits no diagnostic (for any token
locations and any incoming counter value). -/
theorem parseIdentifier_wellFormedChain (x : Token) (links : List (Token × Token)) (c0 : Nat)
    (hx : x.Kind = tok.identifier)
    (hl : ∀ l ∈ links, l.1.Kind = tok.period ∧ l.2.Kind = tok.identifier) :
    ∃ r, parseIdentifier (x :: linkTokens links) x c0 = Except.ok r ∧
      r.result = chainOf (baseRef x) links ∧
      r.toksConsumed = 2 * links.length + 1 ∧
      (x :: linkTokens links).length = 2 * links.length + 1 ∧
      diagnostics r.events = [] := by
  have _ := hx
  cases links with
  | nil =>
    refine ⟨_, rfl, ?_, ?_, ?_, ?_⟩ <;> simp [chainOf, baseRef, deferredToksConsumed, diagnostics, linkTokens]
  | cons l0 ls =>
    have h0 := hl l0 (List.mem_cons_self _ _)
    have hloop := memberAccessLoop_linkTokens ls (fun l hm => hl l (List.mem_cons_of_mem _ hm))
      l0 (baseRef x) h0.1 h0.2
    have hlen := length_linkTokens ls
    simp only [parseIdentifier]
    have h1 : ¬ ((x :: linkTokens (l0 :: ls)).length = 1) := by simp [linkTokens]
    have h2 : ((x :: linkTokens (l0 :: ls)).getD 1 default).isNot tok.period = false := by
      simp [linkTokens, Token.isNot, Token.is, h0.1]
    simp only [h1, h2, if_false, Bool.false_eq_true]
    simp only [baseRef] at hloop
    rw [hloop]
    refine ⟨_, rfl, ?_, ?_, ?_, ?_⟩
    · simp [baseRef]
    · simp [deferredToksConsumed, linkTokens, hlen]; omega
    · simp [linkTokens, hlen]; omega
    · simp [diagnostics]

/-- The five-token window `x . y . z` gives `consumed = 5` and the chain `x`, `.y`, `.z`. -/
theorem parseIdentifier_wellFormedChain_witness :
    tokX.Kind = tok.identifier ∧
    (∀ l ∈ [(tokDot1, tokY), (tokDot2, tokZ)], l.1.Kind = tok.period ∧ l.2.Kind = tok.identifier) ∧
    ∃ r, parseIdentifier [tokX, tokDot1, tokY, tokDot2, tokZ] tokX 0 = Except.ok r ∧
      r.result = Expr.UnresolvedDotExpr (Expr.UnresolvedDotExpr
        (Expr.UnresolvedDeclRefExpr "x" DeclRefKind.Ordinary 100) 101 "y" 102 false)
        103 "z" 104 false ∧
      r.toksConsumed = 5 ∧
      [tokX, tokDot1, tokY, tokDot2, tokZ].length = 5 ∧
      diagnostics r.events = [] :=
  ⟨rfl, by decide,
    parseIdentifier_wellFormedChain tokX [(tokDot1, tokY), (tokDot2, tokZ)] 0 rfl (by decide)⟩

/-- The loop never fails on a non-empty window: it builds the leading
(period, identifier) pairs and leaves the rest of the window. -/
theorem memberAccessLoop_spec : ∀ (n : Nat) (tmp : List Token) (result : Expr),
    tmp.length ≤ n → tmp ≠ [] →
    ∃ evs, memberAccessLoop result tmp =
      Except.ok (addLinks result tmp (chainLength tmp), tmp.drop (2 * chainLength tmp), evs) := by
  intro n
  induction n with
  | zero =>
    intro tmp result hlen hne
    cases tmp with
    | nil => exact absurd rfl hne
    | cons t ts => simp at hlen
  | succ n ih =>
    intro tmp result hlen hne
    match tmp, hne with
    | [t0], _ =>
      by_cases h0 : t0.Kind = tok.period <;>
        simp [memberAccessLoop, Token.is, h0, chainLength, addLinks]
    | t0 :: t1 :: rest, _ =>
      rw [memberAccessLoop]
      by_cases h0 : t0.Kind = tok.period
      · by_cases h1 : t1.Kind = tok.identifier
        · by_cases hr : rest.length < 2
          · have hc : chainLength rest = 0 := by
              match rest, hr with
              | [], _ => rfl
              | [_], _ => rfl
            simp [Token.is, Token.isNot, h0, h1, hr, chainLength, addLinks, hc, dotLink]
          · have hne2 : rest ≠ [] := by
              intro h; rw [h] at hr; simp at hr
            have hlen2 : rest.length ≤ n := by simp at hlen; omega
            obtain ⟨evs, hev⟩ := ih rest (dotLink result t0 t1) hlen2 hne2
            refine ⟨evs, ?_⟩
            simp only [dotLink] at hev
            simp [Token.is, Token.isNot, h0, h1, hr, chainLength, addLinks, dotLink, hev,
              Nat.mul_add]
        · simp [Token.is, Token.isNot, h0, h1, chainLength, addLinks]
      · simp [Token.is, Token.isNot, h0, chainLength, addLinks]

/-- The expression and the unconsumed remainder of `parseIdentifier` on any
non-empty window. -/
theorem parseIdentifier_spec (x : Token) (rest : List Token) (firstTok : Token) (c0 : Nat) :
    ∃ evs, parseIdentifier (x :: rest) firstTok c0 =
      Except.ok ⟨addLinks (baseRef firstTok) rest (chainLength rest),
        deferredToksConsumed (x :: rest) (rest.drop (2 * chainLength rest)) c0, evs⟩ := by
  simp only [parseIdentifier]
  match rest with
  | [] =>
    refine ⟨[Event.typeCheckExpression (baseRef firstTok)], ?_⟩
    simp [chainLength, addLinks, baseRef]
  | t :: ts =>
    by_cases ht : t.Kind = tok.period
    · obtain ⟨evs, hev⟩ := memberAccessLoop_spec (t :: ts).length (t :: ts)
        (baseRef firstTok) (le_refl _) (by simp)
      simp only [baseRef] at hev
      have h2 : t.isNot tok.period = false := by
        simp [Token.isNot, Token.is, ht]
      refine ⟨[Event.typeCheckExpression (baseRef firstTok)] ++ evs ++
        [Event.typeCheckExpression (addLinks (baseRef firstTok) (t :: ts) (chainLength (t :: ts)))], ?_⟩
      simp [h2, hev, baseRef]
    · have hc : chainLength (t :: ts) = 0 := by
        match ts with
        | [] => rfl
        | _ :: _ => simp [chainLength, ht]
      have h2 : t.isNot tok.period = true := by
        simp [Token.isNot, Token.is, ht]
      refine ⟨[Event.typeCheckExpression (baseRef firstTok)], ?_⟩
      simp [h2, hc, addLinks, baseRef]

theorem countUntilLoc_nodup : ∀ (w : List Token) (n c : Nat),
    (w.map Token.getLoc).Nodup → n < w.length →
    countUntilLoc (w.getD n default).getLoc w c = c + n := by
  intro w
  induction w with
  | nil => intro n c _ hn; simp at hn
  | cons t ts ih =>
    intro n c hd hn
    cases n with
    | zero => simp [countUntilLoc]
    | succ m =>
      have hm : m < ts.length := by simpa using hn
      rw [List.map_cons, List.nodup_cons] at hd
      have hne : t.getLoc ≠ (ts.getD m default).getLoc := by
        intro heq
        apply hd.1
        rw [heq, List.getD_eq_getElem _ _ hm]
        exact List.mem_map_of_mem _ (List.getElem_mem hm)
      simp only [List.getD_cons_succ, countUntilLoc, hne, ne_eq, not_false_eq_true, if_true]
      rw [ih m (c + 1) hd.2 hm]
      omega

theorem deferredToksConsumed_drop (w : List Token) (n : Nat)
    (hd : (w.map Token.getLoc).Nodup) (hn : n ≤ w.length) :
    deferredToksConsumed w (w.drop n) 0 = n := by
  rcases Nat.lt_or_ge n w.length with h | h
  · rw [List.drop_eq_getElem_cons h]
    simp only [deferredToksConsumed]
    have := countUntilLoc_nodup w n 0 hd h
    rw [List.getD_eq_getElem _ _ h] at this
    simpa using this
  · have : n = w.length := le_antisymm hn h
    subst this
    simp [deferredToksConsumed]

theorem chainLength_le : ∀ (n : Nat) (rest : List Token), rest.length ≤ n →
    2 * chainLength rest ≤ rest.length := by
  intro n
  induction n with
  | zero =>
    intro rest h
    have : rest = [] := List.length_eq_zero.mp (Nat.le_zero.mp h)
    subst this; simp [chainLength]
  | succ n ih =>
    intro rest h
    match rest with
    | [] => simp [chainLength]
    | [_] => simp [chainLength]
    | p :: i :: r =>
      have := ih r (by simp at h; omega)
      simp only [chainLength]
      split
      · simp; omega
      · simp

theorem isLinkAt_cons_zero (x p i : Token) (r : List Token) :
    isLinkAt (x :: p :: i :: r) 0 ↔ p.Kind = tok.period ∧ i.Kind = tok.identifier := by
  simp [isLinkAt]

theorem isLinkAt_cons_succ (x p i : Token) (r : List Token) (j : Nat) :
    isLinkAt (x :: p :: i :: r) (j + 1) ↔ isLinkAt (i :: r) j := by
  have e1 : 1 + 2 * (j + 1) = (1 + 2 * j) + 1 + 1 := by omega
  have e2 : 2 + 2 * (j + 1) = (2 + 2 * j) + 1 + 1 := by omega
  simp only [isLinkAt, e1, e2, List.getElem?_cons_succ]

/-- The claim's index description of `k` determines the number of leading links. -/
theorem chainLength_eq_of_isLinkAt : ∀ (k : Nat) (x : Token) (rest : List Token),
    (∀ j < k, isLinkAt (x :: rest) j) → ¬ isLinkAt (x :: rest) k → chainLength rest = k := by
  intro k
  induction k with
  | zero =>
    intro x rest _ hmax
    match rest with
    | [] => rfl
    | [_] => rfl
    | p :: i :: r =>
      rw [isLinkAt_cons_zero] at hmax
      simp [chainLength, hmax]
  | succ k ih =>
    intro x rest hk hmax
    have h0 := hk 0 (Nat.succ_pos k)
    match rest with
    | [] => simp [isLinkAt] at h0
    | [_] => simp [isLinkAt] at h0
    | p :: i :: r =>
      rw [isLinkAt_cons_succ] at hmax
      have hk2 : ∀ j < k, isLinkAt (i :: r) j := fun j hj =>
        (isLinkAt_cons_succ x p i r j).mp (hk (j + 1) (Nat.succ_lt_succ hj))
      rw [isLinkAt_cons_zero] at h0
      simp [chainLength, h0, ih i r hk2 hmax]

theorem addLinks_zero (base : Expr) (rest : List Token) : addLinks base rest 0 = base := by
  unfold addLinks
  split
  · omega
  · rfl

theorem addLinks_succ : ∀ (k : Nat) (base : Expr) (rest : List Token),
    2 * (k + 1) ≤ rest.length →
    addLinks base rest (k + 1) =
      dotLink (addLinks base rest k) (rest.getD (2 * k) default) (rest.getD (2 * k + 1) default) := by
  intro k
  induction k with
  | zero =>
    intro base rest h
    match rest with
    | [] => simp at h
    | [_] => simp at h
    | p :: i :: r => simp [addLinks, addLinks_zero]
  | succ k ih =>
    intro base rest h
    match rest with
    | [] => simp at h
    | [_] => exfalso; simp at h; omega
    | p :: i :: r =>
      have h2 : 2 * (k + 1) ≤ r.length := by simp at h; omega
      have e1 : 2 * (k + 1) = 2 * k + 1 + 1 := by omega
      have e2 : 2 * (k + 1) + 1 = 2 * k + 1 + 1 + 1 := by omega
      rw [addLinks, ih (dotLink base p i) r h2, addLinks, e1]
      simp only [List.getD_cons_succ]

theorem addLinks_eq_chainExpr (x : Token) (rest : List Token) : ∀ (k : Nat),
    2 * k ≤ rest.length → addLinks (baseRef x) rest k = chainExpr (x :: rest) k := by
  intro k
  induction k with
  | zero => intro _; simp [addLinks_zero, chainExpr]
  | succ k ih =>
    intro h
    have e1 : 1 + 2 * k = 2 * k + 1 := by omega
    have e2 : 2 + 2 * k = 2 * k + 1 + 1 := by omega
    rw [addLinks_succ k _ _ h, ih (by omega), chainExpr, e1, e2]
    simp only [List.getD_cons_succ]

/-- The number `k` of the claim always exists: it is the number of leading
(period, identifier) pairs after the first token. -/
theorem isLinkAt_chainLength : ∀ (n : Nat) (x : Token) (rest : List Token), rest.length ≤ n →
    (∀ j < chainLength rest, isLinkAt (x :: rest) j) ∧
      ¬ isLinkAt (x :: rest) (chainLength rest) := by
  intro n
  induction n with
  | zero =>
    intro x rest h
    have : rest = [] := List.length_eq_zero.mp (Nat.le_zero.mp h)
    subst this
    simp [chainLength, isLinkAt]
  | succ n ih =>
    intro x rest h
    match rest with
    | [] => simp [chainLength, isLinkAt]
    | [_] => simp [chainLength, isLinkAt]
    | p :: i :: r =>
      by_cases hc : p.Kind = tok.period ∧ i.Kind = tok.identifier
      · have hr := ih i r (by simp at h; omega)
        simp only [chainLength, hc, and_self, if_true]
        refine ⟨?_, ?_⟩
        · intro j hj
          cases j with
          | zero => exact (isLinkAt_cons_zero x p i r).mpr hc
          | succ j => exact (isLinkAt_cons_succ x p i r j).mpr (hr.1 j (by omega))
        · rw [isLinkAt_cons_succ]; exact hr.2
      · simp only [chainLength, hc, if_false]
        refine ⟨fun j hj => absurd hj (Nat.not_lt_zero j), ?_⟩
        rw [isLinkAt_cons_zero]; exact hc

/-- C2: for a non-empty window with pairwise distinct token locations and the
counter starting at 0, with `k` the largest number such that every `j < k` has a
period at index `1 + 2j` and an identifier at index `2 + 2j`, `parseIdentifier`
returns the base reference followed by exactly those `k` links and reports
`consumed = 1 + 2k`, which lies between 1 and the window length. -/
theorem parseIdentifier_consumed_and_chain (x : Token) (rest : List Token) (k : Nat)
    (hd : ((x :: rest).map Token.getLoc).Nodup)
    (hk : ∀ j < k, isLinkAt (x :: rest) j) (hmax : ¬ isLinkAt (x :: rest) k) :
    ∃ r, parseIdentifier (x :: rest) x 0 = Except.ok r ∧
      r.result = chainExpr (x :: rest) k ∧
      r.toksConsumed = 1 + 2 * k ∧
      1 ≤ r.toksConsumed ∧ r.toksConsumed ≤ (x :: rest).length := by
  have hc := chainLength_eq_of_isLinkAt k x rest hk hmax
  have hle := chainLength_le rest.length rest (le_refl _)
  rw [hc] at hle
  obtain ⟨evs, hev⟩ := parseIdentifier_spec x rest x 0
  rw [hc] at hev
  have hdrop : rest.drop (2 * k) = (x :: rest).drop (1 + 2 * k) := by
    rw [Nat.add_comm 1 (2 * k), List.drop_succ_cons]
  have hcount : deferredToksConsumed (x :: rest) (rest.drop (2 * k)) 0 = 1 + 2 * k := by
    rw [hdrop]
    exact deferredToksConsumed_drop (x :: rest) (1 + 2 * k) hd (by simp; omega)
  refine ⟨_, hev, ?_, ?_, ?_, ?_⟩
  · exact addLinks_eq_chainExpr x rest k hle
  · exact hcount
  · simp only [hcount]; omega
  · simp only [hcount, List.length_cons]; omega

/-- The four-token window `x . y .` (a malformed trailing period): `k = 1`, the
chain `x`, `.y` is kept and `consumed = 3`. -/
theorem parseIdentifier_consumed_and_chain_witness :
    (([tokX, tokDot1, tokY, tokDot2].map Token.getLoc).Nodup) ∧
    (∀ j < 1, isLinkAt [tokX, tokDot1, tokY, tokDot2] j) ∧
    ¬ isLinkAt [tokX, tokDot1, tokY, tokDot2] 1 ∧
    ∃ r, parseIdentifier [tokX, tokDot1, tokY, tokDot2] tokX 0 = Except.ok r ∧
      r.result = chainExpr [tokX, tokDot1, tokY, tokDot2] 1 ∧
      r.toksConsumed = 1 + 2 * 1 ∧
      1 ≤ r.toksConsumed ∧ r.toksConsumed ≤ [tokX, tokDot1, tokY, tokDot2].length :=
  ⟨by decide, by decide, by decide,
    parseIdentifier_consumed_and_chain tokX [tokDot1, tokY, tokDot2] 1
      (by decide) (by decide) (by decide)⟩

/-- C3: when the second token is a period that is the last token or is
followed by a non-identifier, `parseIdentifier`, called with the counter at 0 as
`LookupInlineAsmIdentifier` calls it, on tokens of the source (the period does
not stand at the location of `x`), emits exactly one expected-member-name
diagnostic, at that period, and returns the same expression and the same
consumed count, 1, as on the single-token window `x`. -/
theorem parseIdentifier_malformedAfterBase (x p : Token) (rest : List Token)
    (hx : x.Kind = tok.identifier) (hp : p.Kind = tok.period)
    (hbad : rest = [] ∨ ∃ t ts, rest = t :: ts ∧ t.Kind ≠ tok.identifier)
    (hloc : x.getLoc ≠ p.getLoc) :
    ∃ r r1, parseIdentifier (x :: p :: rest) x 0 = Except.ok r ∧
      parseIdentifier [x] x 0 = Except.ok r1 ∧
      diagnostics r.events = [Diag.expected_member_name p.getLoc] ∧
      r.result = r1.result ∧
      r.toksConsumed = r1.toksConsumed ∧
      r.toksConsumed = 1 := by
  have _ := hx
  have hp2 : p.isNot tok.period = false := by simp [Token.isNot, Token.is, hp]
  have hloop : memberAccessLoop (baseRef x) (p :: rest) =
      Except.ok (baseRef x, p :: rest, [Event.diagnose (Diag.expected_member_name p.getLoc)]) := by
    rcases hbad with h | ⟨t, ts, h, ht⟩
    · subst h; simp [memberAccessLoop, Token.is, hp]
    · subst h; simp [memberAccessLoop, Token.is, Token.isNot, hp, ht]
  simp only [baseRef] at hloop
  have hcount : deferredToksConsumed (x :: p :: rest) (p :: rest) 0 = 1 := by
    simp [deferredToksConsumed, countUntilLoc, hloc]
  refine ⟨⟨baseRef x, deferredToksConsumed (x :: p :: rest) (p :: rest) 0,
      [Event.typeCheckExpression (baseRef x),
       Event.diagnose (Diag.expected_member_name p.getLoc),
       Event.typeCheckExpression (baseRef x)]⟩,
    ⟨baseRef x, 1, [Event.typeCheckExpression (baseRef x)]⟩, ?_, ?_, ?_, rfl, hcount, hcount⟩
  · simp [parseIdentifier, hp2, hloop, baseRef]
  · simp [parseIdentifier, deferredToksConsumed, baseRef]
  · simp [diagnostics]

/-- The two-token window `x .`: one diagnostic at the period, the expression and
the count of the window `x` alone. -/
theorem parseIdentifier_malformedAfterBase_witness :
    tokX.Kind = tok.identifier ∧ tokDot1.Kind = tok.period ∧
    tokX.getLoc ≠ tokDot1.getLoc ∧
    ∃ r r1, parseIdentifier [tokX, tokDot1] tokX 0 = Except.ok r ∧
      parseIdentifier [tokX] tokX 0 = Except.ok r1 ∧
      diagnostics r.events = [Diag.expected_member_name tokDot1.getLoc] ∧
      r.result = r1.result ∧
      r.toksConsumed = r1.toksConsumed ∧
      r.toksConsumed = 1 :=
  ⟨rfl, rfl, by decide,
    parseIdentifier_malformedAfterBase tokX tokDot1 [] rfl rfl (Or.inl rfl) (by decide)⟩

/-- C4 at the window `x . y .`: the link `.y` is built, parsing stops at the
trailing period, which no token follows, and no diagnostic is emitted
(`consumed = 3`); the same malformed period right after the base, in the window
`x .`, is diagnosed. -/
theorem parseIdentifier_trailingPeriod_undiagnosed :
    parseIdentifier [tokX, tokDot1, tokY, tokDot2] tokX 0 =
      Except.ok ⟨dotLink (baseRef tokX) tokDot1 tokY, 3,
        [Event.typeCheckExpression (baseRef tokX),
         Event.typeCheckExpression (dotLink (baseRef tokX) tokDot1 tokY)]⟩ ∧
    diagnostics [Event.typeCheckExpression (baseRef tokX),
         Event.typeCheckExpression (dotLink (baseRef tokX) tokDot1 tokY)] = [] ∧
    parseIdentifier [tokX, tokDot1] tokX 0 =
      Except.ok ⟨baseRef tokX, 1,
        [Event.typeCheckExpression (baseRef tokX),
         Event.diagnose (Diag.expected_member_name tokDot1.getLoc),
         Event.typeCheckExpression (baseRef tokX)]⟩ := by
  refine ⟨rfl, rfl, rfl⟩

/-- C5: on a window with exactly one token, or whose second token is not a
period, `parseIdentifier` returns the bare reference built from the first
token's text and location, reports `consumed = 1` (distinct token locations,
counter starting at 0) and emits no diagnostic. -/
theorem parseIdentifier_noChain (x : Token) (rest : List Token)
    (h : (x :: rest).length = 1 ∨ ∃ t, (x :: rest)[1]? = some t ∧ t.Kind ≠ tok.period)
    (hd : ((x :: rest).map Token.getLoc).Nodup) :
    ∃ r, parseIdentifier (x :: rest) x 0 = Except.ok r ∧
      r.result = Expr.UnresolvedDeclRefExpr x.getText DeclRefKind.Ordinary x.getLoc ∧
      r.toksConsumed = 1 ∧
      diagnostics r.events = [] := by
  match rest with
  | [] =>
    exact ⟨⟨baseRef x, 1, [Event.typeCheckExpression (baseRef x)]⟩,
      by simp [parseIdentifier, deferredToksConsumed, baseRef], rfl, rfl, rfl⟩
  | t :: ts =>
    have ht : t.Kind ≠ tok.period := by
      rcases h with h | ⟨t1, h1, h2⟩
      · simp at h
      · simp at h1; subst h1; exact h2
    have h2 : t.isNot tok.period = true := by simp [Token.isNot, Token.is, ht]
    have hne : x.getLoc ≠ t.getLoc := by
      intro he
      simp only [List.map_cons, List.nodup_cons, List.mem_cons] at hd
      exact hd.1 (Or.inl he)
    refine ⟨⟨baseRef x, 1, [Event.typeCheckExpression (baseRef x)]⟩, ?_, rfl, rfl, rfl⟩
    simp [parseIdentifier, h2, deferredToksConsumed, countUntilLoc, hne, baseRef]

/-- The single-token window `x`. -/
theorem parseIdentifier_noChain_witness :
    ([tokX].length = 1 ∨ ∃ t, [tokX][1]? = some t ∧ t.Kind ≠ tok.period) ∧
    (([tokX].map Token.getLoc).Nodup) ∧
    ∃ r, parseIdentifier [tokX] tokX 0 = Except.ok r ∧
      r.result = Expr.UnresolvedDeclRefExpr tokX.getText DeclRefKind.Ordinary tokX.getLoc ∧
      r.toksConsumed = 1 ∧
      diagnostics r.events = [] :=
  ⟨Or.inl rfl, by decide, parseIdentifier_noChain tokX [] (Or.inl rfl) (by decide)⟩

/-! ## Lemmas on `lower_bound` -/

theorem getD_lt_of_pairwise (xs : List Nat) (hs : xs.Pairwise (· < ·)) (i j : Nat)
    (hij : i < j) (hj : j < xs.length) : xs.getD i 0 < xs.getD j 0 := by
  have hi : i < xs.length := Nat.lt_trans hij hj
  rw [List.getD_eq_getElem _ _ hi, List.getD_eq_getElem _ _ hj]
  exact List.pairwise_iff_getElem.mp hs i j hi hj hij

theorem getD_le_of_pairwise (xs : List Nat) (hs : xs.Pairwise (· < ·)) (i j : Nat)
    (hij : i ≤ j) (hj : j < xs.length) : xs.getD i 0 ≤ xs.getD j 0 := by
  rcases Nat.eq_or_lt_of_le hij with h | h
  · subst h; exact le_refl _
  · exact Nat.le_of_lt (getD_lt_of_pairwise xs hs i j h hj)

/-- Invariant of the halving loop on a strictly increasing table: everything
left of the result is below `value`, everything from the result on is not. -/
theorem lower_bound_loop_spec (xs : List Nat) (value : Nat) (hs : xs.Pairwise (· < ·)) :
    ∀ (fuel first len : Nat), len ≤ fuel → first + len ≤ xs.length →
      (∀ i, i < first → xs.getD i 0 < value) →
      (∀ i, first + len ≤ i → i < xs.length → value ≤ xs.getD i 0) →
      first ≤ lower_bound_loop xs value fuel first len ∧
      lower_bound_loop xs value fuel first len ≤ first + len ∧
      (∀ i, i < lower_bound_loop xs value fuel first len → xs.getD i 0 < value) ∧
      (∀ i, lower_bound_loop xs value fuel first len ≤ i → i < xs.length →
        value ≤ xs.getD i 0) := by
  intro fuel
  induction fuel with
  | zero =>
    intro first len hlen hb hlo hhi
    have h0 : len = 0 := Nat.le_zero.mp hlen
    subst h0
    exact ⟨le_refl _, by simp [lower_bound_loop], by simpa [lower_bound_loop] using hlo,
      by simpa [lower_bound_loop] using hhi⟩
  | succ fuel ih =>
    intro first len hlen hb hlo hhi
    by_cases h0 : len = 0
    · subst h0
      simp only [lower_bound_loop, if_true]
      exact ⟨le_refl _, by omega, hlo, by simpa using hhi⟩
    · have hhalf : len / 2 < len := Nat.div_lt_self (Nat.pos_of_ne_zero h0) (by decide)
      have hmid : first + len / 2 < xs.length := by omega
      by_cases hlt : xs.getD (first + len / 2) 0 < value
      · have hstep : lower_bound_loop xs value (fuel + 1) first len =
            lower_bound_loop xs value fuel (first + len / 2 + 1) (len - len / 2 - 1) := by
          simp only [lower_bound_loop, h0, hlt, if_false, if_true]
        have := ih (first + len / 2 + 1) (len - len / 2 - 1) (by omega) (by omega)
          (fun i hi => Nat.lt_of_le_of_lt
            (getD_le_of_pairwise xs hs i (first + len / 2) (by omega) hmid) hlt)
          (fun i hi hil => hhi i (by omega) hil)
        rw [hstep]
        exact ⟨by omega, by omega, this.2.2.1, this.2.2.2⟩
      · have hstep : lower_bound_loop xs value (fuel + 1) first len =
            lower_bound_loop xs value fuel first (len / 2) := by
          simp only [lower_bound_loop, h0, hlt, if_false]
        have := ih first (len / 2) (by omega) (by omega) hlo
          (fun i hi hil => Nat.le_trans (Nat.le_of_not_lt hlt)
            (getD_le_of_pairwise xs hs (first + len / 2) i hi hil))
        rw [hstep]
        exact ⟨this.1, by omega, this.2.2.1, this.2.2.2⟩

theorem lower_bound_spec (xs : List Nat) (value : Nat) (hs : xs.Pairwise (· < ·)) :
    lower_bound xs value ≤ xs.length ∧
    (∀ i, i < lower_bound xs value → xs.getD i 0 < value) ∧
    (∀ i, lower_bound xs value ≤ i → i < xs.length → value ≤ xs.getD i 0) := by
  have := lower_bound_loop_spec xs value hs xs.length 0 xs.length (le_refl _) (by omega)
    (fun i hi => absurd hi (Nat.not_lt_zero i)) (fun i hi hil => by omega)
  exact ⟨by simpa [lower_bound] using this.2.1, this.2.2.1, this.2.2.2⟩

/-- On a strictly increasing table the search for an entry finds its index. -/
theorem lower_bound_of_entry (xs : List Nat) (hs : xs.Pairwise (· < ·)) (i : Nat)
    (hi : i < xs.length) : lower_bound xs (xs.getD i 0) = i := by
  obtain ⟨_, hlo, hhi⟩ := lower_bound_spec xs (xs.getD i 0) hs
  apply le_antisymm
  · by_contra hcon
    exact Nat.lt_irrefl _ (hlo i (Nat.lt_of_not_le hcon))
  · by_contra hcon
    have hlt : lower_bound xs (xs.getD i 0) < i := Nat.lt_of_not_le hcon
    have h1 := hhi (lower_bound xs (xs.getD i 0)) (le_refl _) (Nat.lt_trans hlt hi)
    have h2 := getD_lt_of_pairwise xs hs _ i hlt hi
    omega

/-! ## Lemmas on `findTokensForString` -/

/-- The collection loop started at `i` appends the run `Toks[i], …, Toks[j-1]`,
where `j` is the first index from `i` on whose offset reaches `e`. -/
theorem collectLoop_run (offs : List Nat) (toks : List Token) (e : Nat)
    (hlen : toks.length = offs.length) (j : Nat) (hj : j ≤ offs.length)
    (hstop : j < offs.length → e ≤ offs.getD j 0) :
    ∀ (fuel i : Nat) (tmp : List Token), fuel + i = offs.length → i ≤ j →
      (∀ m, i ≤ m → m < j → offs.getD m 0 < e) →
      collectLoop offs toks e fuel i tmp = Except.ok (tmp ++ (toks.drop i).take (j - i)) := by
  intro fuel
  induction fuel with
  | zero =>
    intro i tmp hfi hij _
    have : j - i = 0 := by omega
    simp [collectLoop, this]
  | succ fuel ih =>
    intro i tmp hfi hij hrun
    have hi : i < offs.length := by omega
    have hit : i < toks.length := by omega
    have hne : ¬ (i = offs.length) := by omega
    rw [collectLoop]
    simp only [hne, if_false, List.getElem?_eq_getElem hi, List.getElem?_eq_getElem hit]
    rcases Nat.eq_or_lt_of_le hij with heq | hlt
    · subst heq
      have h1 := hstop hi
      rw [List.getD_eq_getElem _ _ hi] at h1
      simp [h1]
    · have h1 := hrun i (le_refl _) hlt
      rw [List.getD_eq_getElem _ _ hi] at h1
      have h2 : ¬ (offs[i] ≥ e) := by omega
      simp only [h2, if_false]
      rw [ih (i + 1) (tmp ++ [toks[i]]) (by omega) (by omega)
        (fun m hm hmj => hrun m (by omega) hmj)]
      have h3 : j - i = (j - (i + 1)) + 1 := by omega
      rw [List.drop_eq_getElem_cons hit, h3, List.take_succ_cons]
      simp

/-- On a strictly increasing table there is a first index from `f` on whose
offset reaches `e` (or the table length when there is none). -/
theorem stop_exists (offs : List Nat) (hs : offs.Pairwise (· < ·)) (e f : Nat)
    (hf : f ≤ offs.length) :
    ∃ j, f ≤ j ∧ j ≤ offs.length ∧ (∀ m, f ≤ m → m < j → offs.getD m 0 < e) ∧
      (j < offs.length → e ≤ offs.getD j 0) := by
  obtain ⟨hr, hlo, hhi⟩ := lower_bound_spec offs e hs
  by_cases h : f ≤ lower_bound offs e
  · exact ⟨lower_bound offs e, h, hr, fun m _ hm => hlo m hm, fun hj => hhi _ (le_refl _) hj⟩
  · exact ⟨f, le_refl _, hf, fun m h1 h2 => by omega, fun hj => hhi f (by omega) hj⟩

/-- A filter that keeps exactly the positions `f ≤ m < j` keeps the run
`drop f` then `take (j - f)`. -/
theorem filter_eq_drop_take {α : Type} (P : α → Bool) : ∀ (L : List α) (f j : Nat),
    (∀ m (hm : m < L.length), P (L.get ⟨m, hm⟩) = true ↔ (f ≤ m ∧ m < j)) →
    L.filter P = (L.drop f).take (j - f) := by
  intro L
  induction L with
  | nil => intro f j _; simp
  | cons a L ih =>
    intro f j h
    have ha := h 0 (by simp)
    simp only [List.get_eq_getElem, List.getElem_cons_zero] at ha
    cases f with
    | zero =>
      cases j with
      | zero =>
        have hall : ∀ x ∈ a :: L, ¬ (P x = true) := by
          intro x hx
          obtain ⟨m, hm, rfl⟩ := List.getElem_of_mem hx
          intro hp
          have := (h m hm).mp (by simpa using hp)
          omega
        simpa using List.filter_eq_nil_iff.mpr hall
      | succ j =>
        have hpa : P a = true := ha.mpr ⟨le_refl _, Nat.succ_pos j⟩
        have := ih 0 j (fun m hm => by
          have := h (m + 1) (by simpa using hm)
          simp only [List.get_eq_getElem, List.getElem_cons_succ] at this
          simp only [List.get_eq_getElem]
          rw [this]; omega)
        simp only [List.drop_zero, Nat.sub_zero] at this ⊢
        rw [List.filter_cons_of_pos hpa, this, List.take_succ_cons]
    | succ f =>
      have hpa : ¬ (P a = true) := fun hp => by have := ha.mp hp; omega
      have := ih f (j - 1) (fun m hm => by
        have := h (m + 1) (by simpa using hm)
        simp only [List.get_eq_getElem, List.getElem_cons_succ] at this
        simp only [List.get_eq_getElem]
        rw [this]; omega)
      rw [List.filter_cons_of_neg hpa, this, List.drop_succ_cons]
      congr 1
      omega

/-- The result of `findTokensForString` on a sub-string that starts on the
boundary of token `f`. -/
theorem findTokensForString_ok (cb : AsmParserCallback)
    (hs : cb.TokOffsets.Pairwise (· < ·)) (hlen : cb.Toks.length = cb.TokOffsets.length)
    (str : StringRef) (tmp : List Token) (f : Nat) (hf : f < cb.TokOffsets.length)
    (hin : withinAsmString cb str) (hb : firstCharOffset cb str = cb.TokOffsets.getD f 0)
    (j : Nat) (hfj : f ≤ j) (hj : j ≤ cb.TokOffsets.length)
    (hrun : ∀ m, f ≤ m → m < j → cb.TokOffsets.getD m 0 < lastCharOffset cb str)
    (hstop : j < cb.TokOffsets.length → lastCharOffset cb str ≤ cb.TokOffsets.getD j 0) :
    findTokensForString cb str tmp =
      Except.ok (tmp ++ (cb.Toks.drop f).take (j - f), cb.Toks.getD f default, f) := by
  have hlb : lower_bound cb.TokOffsets (firstCharOffset cb str) = f := by
    rw [hb]; exact lower_bound_of_entry cb.TokOffsets hs f hf
  have hft : f < cb.Toks.length := by omega
  have hloop := collectLoop_run cb.TokOffsets cb.Toks (lastCharOffset cb str) hlen j hj hstop
    (cb.TokOffsets.length - f) f tmp (by omega) hfj hrun
  have hb2 : cb.TokOffsets[f] = firstCharOffset cb str := by
    rw [hb, List.getD_eq_getElem _ _ hf]
  simp only [findTokensForString, hin, not_true_eq_false, if_false, hlb,
    List.getElem?_eq_getElem hf, List.getElem?_eq_getElem hft, hb2, ne_eq, hloop,
    List.getD_eq_getElem _ _ hft]

/-- C7: on a strictly increasing offset table as long as the token list, the
lookup for a sub-string that starts at byte offset `TokOffsets[i]` yields
`firstTokIndex = i` and `firstTok = Toks[i]`; for a start offset that is no entry
of the table the lookup fails (past the end of the table, or the found entry
differs from the start offset) and returns no token index. -/
theorem findTokensForString_exactBoundary (cb : AsmParserCallback)
    (hs : cb.TokOffsets.Pairwise (· < ·)) (hlen : cb.Toks.length = cb.TokOffsets.length) :
    (∀ (i : Nat) (str : StringRef) (tmp : List Token), i < cb.TokOffsets.length →
        withinAsmString cb str → firstCharOffset cb str = cb.TokOffsets.getD i 0 →
        ∃ toks firstTok, findTokensForString cb str tmp = Except.ok (toks, firstTok, i) ∧
          cb.Toks[i]? = some firstTok) ∧
    (∀ (str : StringRef) (tmp : List Token), firstCharOffset cb str ∉ cb.TokOffsets →
        ∃ d, findTokensForString cb str tmp = Except.error d ∧
          (withinAsmString cb str → d = Defect.pastTheEnd ∨ d = Defect.notOnBoundary)) := by
  constructor
  · intro i str tmp hi hin hb
    obtain ⟨j, hfj, hj, hrun, hstop⟩ :=
      stop_exists cb.TokOffsets hs (lastCharOffset cb str) i (Nat.le_of_lt hi)
    refine ⟨_, _, findTokensForString_ok cb hs hlen str tmp i hi hin hb j hfj hj hrun hstop, ?_⟩
    have hit : i < cb.Toks.length := by omega
    rw [List.getElem?_eq_getElem hit, List.getD_eq_getElem _ _ hit]
  · intro str tmp hnot
    by_cases hin : withinAsmString cb str
    · by_cases hr : lower_bound cb.TokOffsets (firstCharOffset cb str) < cb.TokOffsets.length
      · have hne : ¬ (cb.TokOffsets[lower_bound cb.TokOffsets (firstCharOffset cb str)] =
            firstCharOffset cb str) := by
          intro heq
          exact hnot (heq ▸ List.getElem_mem hr)
        refine ⟨Defect.notOnBoundary, ?_, fun _ => Or.inr rfl⟩
        simp only [findTokensForString, hin, not_true_eq_false, if_false,
          List.getElem?_eq_getElem hr, ne_eq, hne, not_false_eq_true, if_true]
      · refine ⟨Defect.pastTheEnd, ?_, fun _ => Or.inl rfl⟩
        have hnone : cb.TokOffsets[lower_bound cb.TokOffsets (firstCharOffset cb str)]? = none :=
          List.getElem?_eq_none (Nat.le_of_not_lt hr)
        simp only [findTokensForString, hin, not_true_eq_false, if_false, hnone]
    · exact ⟨Defect.outsideAsmString, by simp [findTokensForString, hin], fun h => absurd h hin⟩

/-- On the demo table `[0, 4, 5]`: the sub-string at offset 4 is found at index
1, the sub-string at offset 3 is rejected. -/
theorem findTokensForString_exactBoundary_witness :
    cbDemo.TokOffsets.Pairwise (· < ·) ∧ cbDemo.Toks.length = cbDemo.TokOffsets.length ∧
    (∃ toks firstTok, findTokensForString cbDemo ⟨1004, 2⟩ [] = Except.ok (toks, firstTok, 1) ∧
      cbDemo.Toks[1]? = some firstTok) ∧
    (∃ d, findTokensForString cbDemo ⟨1003, 2⟩ [] = Except.error d ∧
      (withinAsmString cbDemo ⟨1003, 2⟩ → d = Defect.pastTheEnd ∨ d = Defect.notOnBoundary)) :=
  ⟨by decide, rfl,
    (findTokensForString_exactBoundary cbDemo (by decide) rfl).1 1 ⟨1004, 2⟩ []
      (by decide) (by decide) (by decide),
    (findTokensForString_exactBoundary cbDemo (by decide) rfl).2 ⟨1003, 2⟩ [] (by decide)⟩

/-- On a strictly increasing table, the tokens whose offset lies in
`[TokOffsets[f], e)` are the run from `f` to the first index whose offset
reaches `e`. -/
theorem filter_window_eq_run (offs : List Nat) (toks : List Token)
    (hs : offs.Pairwise (· < ·)) (hlen : toks.length = offs.length) (e f j : Nat)
    (hf : f < offs.length) (hj : j ≤ offs.length)
    (hrun : ∀ m, f ≤ m → m < j → offs.getD m 0 < e)
    (hstop : j < offs.length → e ≤ offs.getD j 0) :
    ((toks.zip offs).filter (fun p => decide (offs.getD f 0 ≤ p.2 ∧ p.2 < e))).map Prod.fst =
      (toks.drop f).take (j - f) := by
  have hL : (toks.zip offs).length = offs.length := by simp [hlen]
  have key := filter_eq_drop_take (fun p : Token × Nat => decide (offs.getD f 0 ≤ p.2 ∧ p.2 < e))
    (toks.zip offs) f j (by
      intro m hm
      have hmo : m < offs.length := by omega
      simp only [List.get_eq_getElem, List.getElem_zip, decide_eq_true_eq]
      rw [← List.getD_eq_getElem offs 0 hmo]
      constructor
      · rintro ⟨h1, h2⟩
        have hfm : f ≤ m := by
          by_contra hcon
          have := getD_lt_of_pairwise offs hs m f (Nat.lt_of_not_le hcon) hf
          omega
        refine ⟨hfm, ?_⟩
        by_contra hcon
        have hjm : j ≤ m := Nat.le_of_not_lt hcon
        have hjl : j < offs.length := by omega
        have h3 := hstop hjl
        have h4 := getD_le_of_pairwise offs hs j m hjm hmo
        omega
      · rintro ⟨h1, h2⟩
        exact ⟨getD_le_of_pairwise offs hs f m h1 hmo, hrun m h1 h2⟩)
  rw [key, List.map_take, List.map_drop, List.map_fst_zip _ _ (by omega)]

/-- C8: on a strictly increasing table, for a sub-range `[b, e)` of the assembly
text with `b = TokOffsets[f]`, `findTokensForString` appends exactly the run
`Toks[f], …, Toks[j-1]`, `j` being the first index from `f` on with
`TokOffsets[j] ≥ e` (or the table length); these are exactly the tokens whose
start offset `o` satisfies `b ≤ o < e`, in table order. -/
theorem findTokensForString_window (cb : AsmParserCallback)
    (hs : cb.TokOffsets.Pairwise (· < ·)) (hlen : cb.Toks.length = cb.TokOffsets.length)
    (str : StringRef) (tmp : List Token) (f : Nat) (hf : f < cb.TokOffsets.length)
    (hin : withinAsmString cb str) (hb : firstCharOffset cb str = cb.TokOffsets.getD f 0) :
    ∃ toks firstTok j, findTokensForString cb str tmp = Except.ok (toks, firstTok, f) ∧
      f ≤ j ∧ j ≤ cb.TokOffsets.length ∧
      (∀ m, f ≤ m → m < j → cb.TokOffsets.getD m 0 < lastCharOffset cb str) ∧
      (j < cb.TokOffsets.length → lastCharOffset cb str ≤ cb.TokOffsets.getD j 0) ∧
      toks = tmp ++ (cb.Toks.drop f).take (j - f) ∧
      toks = tmp ++ ((cb.Toks.zip cb.TokOffsets).filter (fun p =>
        decide (firstCharOffset cb str ≤ p.2 ∧ p.2 < lastCharOffset cb str))).map Prod.fst := by
  obtain ⟨j, hfj, hj, hrun, hstop⟩ :=
    stop_exists cb.TokOffsets hs (lastCharOffset cb str) f (Nat.le_of_lt hf)
  refine ⟨_, _, j, findTokensForString_ok cb hs hlen str tmp f hf hin hb j hfj hj hrun hstop,
    hfj, hj, hrun, hstop, rfl, ?_⟩
  rw [hb, filter_window_eq_run cb.TokOffsets cb.Toks hs hlen (lastCharOffset cb str) f j hf hj
    hrun hstop]

/-- On the demo table `[0, 4, 5]`, the sub-range `[4, 5)` yields the run that
starts at index 1. -/
theorem findTokensForString_window_witness :
    cbDemo.TokOffsets.Pairwise (· < ·) ∧ cbDemo.Toks.length = cbDemo.TokOffsets.length ∧
    1 < cbDemo.TokOffsets.length ∧ withinAsmString cbDemo ⟨1004, 1⟩ ∧
    firstCharOffset cbDemo ⟨1004, 1⟩ = cbDemo.TokOffsets.getD 1 0 ∧
    ∃ toks firstTok j, findTokensForString cbDemo ⟨1004, 1⟩ [tokX] = Except.ok (toks, firstTok, 1) ∧
      1 ≤ j ∧ j ≤ cbDemo.TokOffsets.length ∧
      (∀ m, 1 ≤ m → m < j → cbDemo.TokOffsets.getD m 0 < lastCharOffset cbDemo ⟨1004, 1⟩) ∧
      (j < cbDemo.TokOffsets.length → lastCharOffset cbDemo ⟨1004, 1⟩ ≤ cbDemo.TokOffsets.getD j 0) ∧
      toks = [tokX] ++ (cbDemo.Toks.drop 1).take (j - 1) ∧
      toks = [tokX] ++ ((cbDemo.Toks.zip cbDemo.TokOffsets).filter (fun p =>
        decide (firstCharOffset cbDemo ⟨1004, 1⟩ ≤ p.2 ∧
          p.2 < lastCharOffset cbDemo ⟨1004, 1⟩))).map Prod.fst :=
  ⟨by decide, rfl, by decide, by decide, by decide,
    findTokensForString_window cbDemo (by decide) rfl ⟨1004, 1⟩ [tokX] 1 (by decide) (by decide)
      (by decide)⟩

/-- Every token collected for a sub-range that starts on the boundary of token
`f` is `Toks[f + n]` for its position `n`, and starts inside the sub-range. -/
theorem findTokensForString_collected (cb : AsmParserCallback)
    (hs : cb.TokOffsets.Pairwise (· < ·)) (hlen : cb.Toks.length = cb.TokOffsets.length)
    (str : StringRef) (f : Nat) (hf : f < cb.TokOffsets.length)
    (hin : withinAsmString cb str) (hb : firstCharOffset cb str = cb.TokOffsets.getD f 0) :
    ∃ toks firstTok, findTokensForString cb str [] = Except.ok (toks, firstTok, f) ∧
      ∀ n, n < toks.length →
        toks[n]? = cb.Toks[f + n]? ∧ f + n < cb.TokOffsets.length ∧
        firstCharOffset cb str ≤ cb.TokOffsets.getD (f + n) 0 ∧
        cb.TokOffsets.getD (f + n) 0 < lastCharOffset cb str := by
  obtain ⟨j, hfj, hj, hrun, hstop⟩ :=
    stop_exists cb.TokOffsets hs (lastCharOffset cb str) f (Nat.le_of_lt hf)
  refine ⟨_, _, findTokensForString_ok cb hs hlen str [] f hf hin hb j hfj hj hrun hstop, ?_⟩
  intro n hn
  simp only [List.nil_append, List.length_take, List.length_drop] at hn
  have hnj : f + n < j := by omega
  refine ⟨?_, by omega, ?_, hrun (f + n) (by omega) hnj⟩
  · simp only [List.nil_append]
    rw [List.getElem?_take_of_lt (by omega), List.getElem?_drop]
  · rw [hb]
    exact getD_le_of_pairwise cb.TokOffsets hs f (f + n) (by omega) (by omega)

/-- C9 (amended): every token returned for a sub-range `[b, e)` that starts on
the boundary of token `f` is a token `Toks[i]` of the table, `i ≥ f`, whose start
offset `o = TokOffsets[i]` satisfies `b ≤ o < e`; nothing is claimed about where
the token ends. -/
theorem findTokensForString_starts_inside (cb : AsmParserCallback)
    (hs : cb.TokOffsets.Pairwise (· < ·)) (hlen : cb.Toks.length = cb.TokOffsets.length)
    (str : StringRef) (f : Nat) (hf : f < cb.TokOffsets.length)
    (hin : withinAsmString cb str) (hb : firstCharOffset cb str = cb.TokOffsets.getD f 0) :
    ∃ toks firstTok, findTokensForString cb str [] = Except.ok (toks, firstTok, f) ∧
      ∀ t ∈ toks, ∃ i o, f ≤ i ∧ cb.Toks[i]? = some t ∧ cb.TokOffsets[i]? = some o ∧
        firstCharOffset cb str ≤ o ∧ o < lastCharOffset cb str := by
  obtain ⟨toks, firstTok, hfind, hall⟩ := findTokensForString_collected cb hs hlen str f hf hin hb
  refine ⟨toks, firstTok, hfind, ?_⟩
  intro t ht
  obtain ⟨n, hn, hnt⟩ := List.getElem_of_mem ht
  obtain ⟨h1, h2, h3, h4⟩ := hall n hn
  rw [List.getD_eq_getElem _ _ h2] at h3 h4
  refine ⟨f + n, cb.TokOffsets[f + n], Nat.le_add_right f n, ?_, List.getElem?_eq_getElem h2,
    h3, h4⟩
  rw [← h1, List.getElem?_eq_getElem hn, hnt]

/-- On the demo table the sub-range `[0, 5)` returns the tokens at offsets 0 and 4. -/
theorem findTokensForString_starts_inside_witness :
    cbDemo.TokOffsets.Pairwise (· < ·) ∧ cbDemo.Toks.length = cbDemo.TokOffsets.length ∧
    0 < cbDemo.TokOffsets.length ∧ withinAsmString cbDemo ⟨1000, 5⟩ ∧
    firstCharOffset cbDemo ⟨1000, 5⟩ = cbDemo.TokOffsets.getD 0 0 ∧
    ∃ toks firstTok, findTokensForString cbDemo ⟨1000, 5⟩ [] = Except.ok (toks, firstTok, 0) ∧
      ∀ t ∈ toks, ∃ i o, 0 ≤ i ∧ cbDemo.Toks[i]? = some t ∧ cbDemo.TokOffsets[i]? = some o ∧
        firstCharOffset cbDemo ⟨1000, 5⟩ ≤ o ∧ o < lastCharOffset cbDemo ⟨1000, 5⟩ :=
  ⟨by decide, rfl, by decide, by decide, by decide,
    findTokensForString_starts_inside cbDemo (by decide) rfl ⟨1000, 5⟩ 0 (by decide) (by decide)
      (by decide)⟩

/-- C9 as stated fails: the sub-range `[0, 2)` of the demo text starts on the
boundary of the token `abc` (offset 0, length 3); the token is returned although
it ends at offset 3, past the end 2 of the sub-range. -/
theorem findTokensForString_fully_inside_counterexample :
    cbDemo.TokOffsets.Pairwise (· < ·) ∧ cbDemo.Toks.length = cbDemo.TokOffsets.length ∧
    withinAsmString cbDemo ⟨1000, 2⟩ ∧
    firstCharOffset cbDemo ⟨1000, 2⟩ = 0 ∧ lastCharOffset cbDemo ⟨1000, 2⟩ = 2 ∧
    findTokensForString cbDemo ⟨1000, 2⟩ [] =
      Except.ok ([⟨tok.identifier, "abc", 5000, 3⟩], ⟨tok.identifier, "abc", 5000, 3⟩, 0) ∧
    cbDemo.TokOffsets[0]? = some 0 ∧
    ¬ (0 + (⟨tok.identifier, "abc", 5000, 3⟩ : Token).getLength ≤ 2) := by
  refine ⟨by decide, rfl, by decide, by decide, by decide, rfl, rfl, by decide⟩

/-! ## Lemmas on `LookupInlineAsmIdentifier` -/

/-- What a successful `findTokensForString` says about its input. -/
theorem findTokensForString_inv (cb : AsmParserCallback) (str : StringRef)
    (tmp toks : List Token) (firstTok : Token) (f : Nat)
    (h : findTokensForString cb str tmp = Except.ok (toks, firstTok, f)) :
    withinAsmString cb str ∧ f < cb.TokOffsets.length ∧
      firstCharOffset cb str = cb.TokOffsets.getD f 0 := by
  unfold findTokensForString at h
  by_cases hin : withinAsmString cb str
  · simp only [hin, not_true_eq_false, if_false] at h
    by_cases hr : lower_bound cb.TokOffsets (firstCharOffset cb str) < cb.TokOffsets.length
    · simp only [List.getElem?_eq_getElem hr] at h
      by_cases he : cb.TokOffsets[lower_bound cb.TokOffsets (firstCharOffset cb str)] =
          firstCharOffset cb str
      · simp only [he, ne_eq, not_true_eq_false, if_false] at h
        split at h
        · exact absurd h (by simp)
        · split at h
          · exact absurd h (by simp)
          · simp only [Except.ok.injEq, Prod.mk.injEq] at h
            obtain ⟨_, _, h3⟩ := h
            subst h3
            exact ⟨hin, hr, by rw [List.getD_eq_getElem _ _ hr, he]⟩
      · simp [he] at h
    · rw [List.getElem?_eq_none (Nat.le_of_not_lt hr)] at h
      simp at h
  · simp [hin] at h

theorem usub_uadd_eq (a b c : Nat) (h1 : c ≤ a + b) (h2 : a + b - c < 2 ^ 32) :
    usub (uadd a b) c = a + b - c := by
  unfold usub uadd
  norm_num at h2 ⊢
  omega

theorem offset_span_le (A D len : Nat) (hA : A ≤ D)
    (hbe : (D - A) % 2 ^ 32 ≤ (D + len - A) % 2 ^ 32) :
    (D + len - A) % 2 ^ 32 - (D - A) % 2 ^ 32 ≤ len := by
  norm_num at hbe ⊢
  omega

theorem substr_zero (s : StringRef) (n : Nat) : s.substr 0 n = ⟨s.Data, min n s.Length⟩ := by
  simp [StringRef.substr]

/-- What `LookupInlineAsmIdentifier` does to `LineBuf`: with `f` the first token
index and `c` the consumed count, if `0 < c < window size` it becomes
`LineBuf.substr(0, L)`, `L` being `TokOffsets[f+c-1] + length(Toks[f+c-1]) -
TokOffsets[f]` in `unsigned` arithmetic; when the last consumed token ends at or
before the start of the next token this is the prefix of exactly that length; if
`c` equals the window size `LineBuf` is unchanged. -/
theorem LookupInlineAsmIdentifier_substr (cb : AsmParserCallback)
    (hs : cb.TokOffsets.Pairwise (· < ·)) (hlen : cb.Toks.length = cb.TokOffsets.length)
    (LineBuf : StringRef) (Info : InlineAsmIdentifierInfo) (u : Bool)
    (lineToks : List Token) (firstTok : Token) (f : Nat) (r : ParseResult)
    (hfind : findTokensForString cb LineBuf [] = Except.ok (lineToks, firstTok, f))
    (hparse : parseIdentifier lineToks firstTok 0 = Except.ok r) :
    ∃ res, LookupInlineAsmIdentifier cb LineBuf Info u = Except.ok res ∧
      (0 < r.toksConsumed → r.toksConsumed < lineToks.length →
        ∃ lastOffset lastTok firstOffset nextOffset,
          cb.TokOffsets[f + r.toksConsumed - 1]? = some lastOffset ∧
          cb.Toks[f + r.toksConsumed - 1]? = some lastTok ∧
          cb.TokOffsets[f]? = some firstOffset ∧
          cb.TokOffsets[f + r.toksConsumed]? = some nextOffset ∧
          res.LineBuf = LineBuf.substr 0 (usub (uadd lastOffset lastTok.getLength) firstOffset) ∧
          res.LineBuf = ⟨LineBuf.Data,
            min (usub (uadd lastOffset lastTok.getLength) firstOffset) LineBuf.Length⟩ ∧
          (lastOffset + lastTok.getLength ≤ nextOffset →
            firstOffset ≤ lastOffset ∧
            lastOffset + lastTok.getLength - firstOffset ≤ LineBuf.Length ∧
            res.LineBuf = ⟨LineBuf.Data, lastOffset + lastTok.getLength - firstOffset⟩)) ∧
      (r.toksConsumed = lineToks.length → res.LineBuf = LineBuf) := by
  obtain ⟨hin, hf, hb⟩ := findTokensForString_inv cb LineBuf [] lineToks firstTok f hfind
  obtain ⟨toks, ft, hfind2, hall⟩ :=
    findTokensForString_collected cb hs hlen LineBuf f hf hin hb
  rw [hfind] at hfind2
  simp only [Except.ok.injEq, Prod.mk.injEq] at hfind2
  obtain ⟨htoks, _, _⟩ := hfind2
  subst htoks
  by_cases hg : 0 < r.toksConsumed ∧ r.toksConsumed < lineToks.length
  · obtain ⟨hc0, hc1⟩ := hg
    have hlast := hall (r.toksConsumed - 1) (by omega)
    have hnext := hall r.toksConsumed hc1
    have hidx : f + (r.toksConsumed - 1) = f + r.toksConsumed - 1 := by omega
    rw [hidx] at hlast
    obtain ⟨_, hl1, hl2, hl3⟩ := hlast
    obtain ⟨_, hn1, _, hn3⟩ := hnext
    have hlt : f + r.toksConsumed - 1 < cb.Toks.length := by omega
    have e1 : cb.TokOffsets[f + r.toksConsumed - 1]? =
        some (cb.TokOffsets[f + r.toksConsumed - 1]) := List.getElem?_eq_getElem hl1
    have e2 : cb.Toks[f + r.toksConsumed - 1]? = some (cb.Toks[f + r.toksConsumed - 1]) :=
      List.getElem?_eq_getElem hlt
    have e3 : cb.TokOffsets[f]? = some (cb.TokOffsets[f]) := List.getElem?_eq_getElem hf
    have e4 : cb.TokOffsets[f + r.toksConsumed]? = some (cb.TokOffsets[f + r.toksConsumed]) :=
      List.getElem?_eq_getElem hn1
    rw [List.getD_eq_getElem _ _ hl1] at hl2 hl3
    rw [List.getD_eq_getElem _ _ hn1] at hn3
    rw [List.getD_eq_getElem _ _ hf] at hb
    refine ⟨⟨LineBuf.substr 0 (usub (uadd (cb.TokOffsets[f + r.toksConsumed - 1])
        (cb.Toks[f + r.toksConsumed - 1]).getLength) (cb.TokOffsets[f])),
        fillAsmIdentifierInfo r.result Info, r.events⟩, ?_, ?_, ?_⟩
    · simp only [LookupInlineAsmIdentifier, hfind, hparse, hc0, hc1, and_self, if_true,
        e1, e2, e3]
    · intro _ _
      refine ⟨_, _, _, _, e1, e2, e3, e4, rfl, substr_zero _ _, ?_⟩
      intro hno
      have hspan := offset_span_le cb.AsmString.begin LineBuf.Data LineBuf.Length
        (Nat.le_of_not_lt hin.1) (by
          have h1 : firstCharOffset cb LineBuf = (LineBuf.Data - cb.AsmString.begin) % 2 ^ 32 := rfl
          have h2 : lastCharOffset cb LineBuf =
              (LineBuf.Data + LineBuf.Length - cb.AsmString.begin) % 2 ^ 32 := rfl
          omega)
      have h1 : firstCharOffset cb LineBuf = (LineBuf.Data - cb.AsmString.begin) % 2 ^ 32 := rfl
      have h2 : lastCharOffset cb LineBuf =
          (LineBuf.Data + LineBuf.Length - cb.AsmString.begin) % 2 ^ 32 := rfl
      have h3 : lastCharOffset cb LineBuf < 2 ^ 32 := by
        rw [h2]; exact Nat.mod_lt _ (by norm_num)
      have hle : cb.TokOffsets[f] ≤ cb.TokOffsets[f + r.toksConsumed - 1] := by omega
      have hL : cb.TokOffsets[f + r.toksConsumed - 1] +
          (cb.Toks[f + r.toksConsumed - 1]).getLength - cb.TokOffsets[f] ≤ LineBuf.Length := by
        omega
      refine ⟨hle, hL, ?_⟩
      rw [substr_zero, usub_uadd_eq _ _ _ (by omega) (by omega), Nat.min_eq_left hL]
    · intro heq; omega
  · refine ⟨⟨LineBuf, fillAsmIdentifierInfo r.result Info, r.events⟩, ?_, ?_, ?_⟩
    · simp only [LookupInlineAsmIdentifier, hfind, hparse, hg, if_false]
    · intro h0 h1; exact absurd ⟨h0, h1⟩ hg
    · intro _; rfl

/-- C6: on tokens that do not overlap (each ends at or before the start of the
next; table strictly increasing and as long as the token list), with `f` the
first token index and `c` the consumed count returned by `parseIdentifier`: if
`0 < c < window size` then `LineBuf` is replaced by its own prefix of length
`TokOffsets[f+c-1] + length(Toks[f+c-1]) - TokOffsets[f]`, which starts at the
first token and ends exactly at the end of the last consumed token; if `c`
equals the window size `LineBuf` is left unchanged. -/
theorem LookupInlineAsmIdentifier_lineBuf (cb : AsmParserCallback)
    (hs : cb.TokOffsets.Pairwise (· < ·)) (hlen : cb.Toks.length = cb.TokOffsets.length)
    (hno : ∀ i, i + 1 < cb.TokOffsets.length →
      cb.TokOffsets.getD i 0 + (cb.Toks.getD i default).getLength ≤ cb.TokOffsets.getD (i + 1) 0)
    (LineBuf : StringRef) (Info : InlineAsmIdentifierInfo) (u : Bool)
    (lineToks : List Token) (firstTok : Token) (f : Nat) (r : ParseResult)
    (hfind : findTokensForString cb LineBuf [] = Except.ok (lineToks, firstTok, f))
    (hparse : parseIdentifier lineToks firstTok 0 = Except.ok r) :
    ∃ res, LookupInlineAsmIdentifier cb LineBuf Info u = Except.ok res ∧
      (0 < r.toksConsumed → r.toksConsumed < lineToks.length →
        ∃ lastOffset lastTok firstOffset,
          cb.TokOffsets[f + r.toksConsumed - 1]? = some lastOffset ∧
          cb.Toks[f + r.toksConsumed - 1]? = some lastTok ∧
          cb.TokOffsets[f]? = some firstOffset ∧
          firstOffset ≤ lastOffset + lastTok.getLength ∧
          lastOffset + lastTok.getLength - firstOffset ≤ LineBuf.Length ∧
          res.LineBuf = ⟨LineBuf.Data, lastOffset + lastTok.getLength - firstOffset⟩ ∧
          firstCharOffset cb res.LineBuf = firstOffset ∧
          lastCharOffset cb res.LineBuf = lastOffset + lastTok.getLength) ∧
      (r.toksConsumed = lineToks.length → res.LineBuf = LineBuf) := by
  obtain ⟨res, hres, hcut, hsame⟩ := LookupInlineAsmIdentifier_substr cb hs hlen LineBuf Info u
    lineToks firstTok f r hfind hparse
  refine ⟨res, hres, ?_, hsame⟩
  intro hc0 hc1
  obtain ⟨lastOffset, lastTok, firstOffset, nextOffset, e1, e2, e3, e4, _, _, hexact⟩ :=
    hcut hc0 hc1
  obtain ⟨hin, hf, hb⟩ := findTokensForString_inv cb LineBuf [] lineToks firstTok f hfind
  obtain ⟨toks, ft, hfind2, hall⟩ :=
    findTokensForString_collected cb hs hlen LineBuf f hf hin hb
  rw [hfind] at hfind2
  simp only [Except.ok.injEq, Prod.mk.injEq] at hfind2
  obtain ⟨htoks, _, _⟩ := hfind2
  subst htoks
  obtain ⟨_, hn1, _, hn3⟩ := hall r.toksConsumed hc1
  obtain ⟨h1, hv1⟩ := List.getElem?_eq_some.mp e1
  obtain ⟨h2, hv2⟩ := List.getElem?_eq_some.mp e2
  obtain ⟨h3, hv3⟩ := List.getElem?_eq_some.mp e3
  obtain ⟨h4, hv4⟩ := List.getElem?_eq_some.mp e4
  have hidx : f + r.toksConsumed - 1 + 1 = f + r.toksConsumed := by omega
  have hov := hno (f + r.toksConsumed - 1) (by rw [hidx]; exact h4)
  rw [hidx, List.getD_eq_getElem _ _ h1, List.getD_eq_getElem _ _ h2,
    List.getD_eq_getElem _ _ h4, hv1, hv2, hv4] at hov
  obtain ⟨hle, hL, hbuf⟩ := hexact hov
  rw [List.getD_eq_getElem _ _ h4, hv4] at hn3
  rw [List.getD_eq_getElem _ _ h3, hv3] at hb
  refine ⟨lastOffset, lastTok, firstOffset, e1, e2, e3, by omega, hL, hbuf, ?_, ?_⟩
  · rw [hbuf]
    exact hb
  · rw [hbuf]
    have hA : cb.AsmString.begin ≤ LineBuf.Data := Nat.le_of_not_lt hin.1
    have hb2 : (LineBuf.Data - cb.AsmString.begin) % 2 ^ 32 = firstOffset := hb
    have he2 : lastCharOffset cb LineBuf < 2 ^ 32 := Nat.mod_lt _ (by norm_num)
    simp only [lastCharOffset, StringRef.end_]
    norm_num at hb2 he2 ⊢
    omega

/-- On the demo table the line buffer `[0, 5)` holds `abc .`: one token is
consumed and the buffer is cut to the length 3 of `abc`, ending at offset 3. -/
theorem LookupInlineAsmIdentifier_lineBuf_witness :
    cbDemo.TokOffsets.Pairwise (· < ·) ∧ cbDemo.Toks.length = cbDemo.TokOffsets.length ∧
    (∀ i, i + 1 < cbDemo.TokOffsets.length →
      cbDemo.TokOffsets.getD i 0 + (cbDemo.Toks.getD i default).getLength ≤
        cbDemo.TokOffsets.getD (i + 1) 0) ∧
    findTokensForString cbDemo ⟨1000, 5⟩ [] =
      Except.ok ([⟨tok.identifier, "abc", 5000, 3⟩, ⟨tok.period, ".", 5004, 1⟩],
        ⟨tok.identifier, "abc", 5000, 3⟩, 0) ∧
    parseIdentifier [⟨tok.identifier, "abc", 5000, 3⟩, ⟨tok.period, ".", 5004, 1⟩]
        ⟨tok.identifier, "abc", 5000, 3⟩ 0 =
      Except.ok ⟨baseRef ⟨tok.identifier, "abc", 5000, 3⟩, 1,
        [Event.typeCheckExpression (baseRef ⟨tok.identifier, "abc", 5000, 3⟩),
         Event.diagnose (Diag.expected_member_name 5004),
         Event.typeCheckExpression (baseRef ⟨tok.identifier, "abc", 5000, 3⟩)]⟩ ∧
    ∃ res, LookupInlineAsmIdentifier cbDemo ⟨1000, 5⟩ InlineAsmIdentifierInfo.Invalid false =
        Except.ok res ∧
      (0 < 1 → 1 < [(⟨tok.identifier, "abc", 5000, 3⟩ : Token), ⟨tok.period, ".", 5004, 1⟩].length →
        ∃ lastOffset lastTok firstOffset,
          cbDemo.TokOffsets[0 + 1 - 1]? = some lastOffset ∧
          cbDemo.Toks[0 + 1 - 1]? = some lastTok ∧
          cbDemo.TokOffsets[0]? = some firstOffset ∧
          firstOffset ≤ lastOffset + lastTok.getLength ∧
          lastOffset + lastTok.getLength - firstOffset ≤ 5 ∧
          res.LineBuf = ⟨1000, lastOffset + lastTok.getLength - firstOffset⟩ ∧
          firstCharOffset cbDemo res.LineBuf = firstOffset ∧
          lastCharOffset cbDemo res.LineBuf = lastOffset + lastTok.getLength) ∧
      (1 = [(⟨tok.identifier, "abc", 5000, 3⟩ : Token), ⟨tok.period, ".", 5004, 1⟩].length →
        res.LineBuf = ⟨1000, 5⟩) := by
  have hno : ∀ i, i + 1 < cbDemo.TokOffsets.length →
      cbDemo.TokOffsets.getD i 0 + (cbDemo.Toks.getD i default).getLength ≤
        cbDemo.TokOffsets.getD (i + 1) 0 := by
    intro i hi
    have h2 : i < 2 := by
      have hl : cbDemo.TokOffsets.length = 3 := rfl
      omega
    interval_cases i <;> decide
  exact ⟨by decide, rfl, hno, rfl, rfl,
    LookupInlineAsmIdentifier_lineBuf cbDemo (by decide) rfl hno ⟨1000, 5⟩
      InlineAsmIdentifierInfo.Invalid false _ _ 0 _ rfl rfl⟩

/-- C10 at an offset inside the last token: on the demo table `[0, 4, 5]` the
offset 6 lies inside the token `de` (index 2, offset 5, length 2), whose index is
the greatest with `TokOffsets[i] ≤ 6`; `translateLocation` returns the anchor
location 9999 and not the location 5005 of that token advanced by 1.  On the
table `[0, 4, 8, 12]` the offset 9 lies inside token 2; the result 409 is the
location 412 of token 3 moved back by 3, not the location 308 of token 2
advanced by 1. -/
theorem translateLocation_uses_successor :
    (cbDemo.TokOffsets.Pairwise (· < ·) ∧ cbDemo.TokOffsets.getD 0 0 ≤ 6 ∧
      cbDemo.TokOffsets.getD 2 0 ≤ 6 ∧ cbDemo.TokOffsets.length = 3 ∧
      translateLocation cbDemo 2000 2006 = 9999 ∧
      getAdvancedLoc (cbDemo.Toks.getD 2 default).getLoc (6 - 5) = 5006) ∧
    (cbSkew.TokOffsets.Pairwise (· < ·) ∧ cbSkew.TokOffsets.getD 2 0 ≤ 9 ∧
      9 < cbSkew.TokOffsets.getD 3 0 ∧
      translateLocation cbSkew 2000 2009 = 409 ∧
      getAdvancedLoc (cbSkew.Toks.getD 2 default).getLoc (9 - 8) = 309 ∧
      getAdvancedLoc (cbSkew.Toks.getD 3 default).getLoc (-3) = 409) := by
  refine ⟨⟨by decide, by decide, by decide, rfl, by decide, by decide⟩,
    by decide, by decide, by decide, by decide, by decide, by decide⟩


/-! ## `translateLocation`, `handleDiagnostic` and the unsupported callbacks -/

theorem lower_bound_le_first (xs : List Nat) (hs : xs.Pairwise (· < ·)) (v : Nat)
    (hv : v ≤ xs.getD 0 0) : lower_bound xs v = 0 := by
  obtain ⟨_, hlo, _⟩ := lower_bound_spec xs v hs
  by_contra hcon
  have := hlo 0 (Nat.pos_of_ne_zero hcon)
  omega

/-- For an offset not above the first table entry the search selects token 0,
and the location is derived from that token. -/
theorem translateLocation_before_first (cb : AsmParserCallback)
    (hs : cb.TokOffsets.Pairwise (· < ·)) (bufferStart SMLoc : Nat)
    (hne : 0 < cb.Toks.length)
    (hO : (SMLoc - bufferStart) % 2 ^ 32 ≤ cb.TokOffsets.getD 0 0) :
    translateLocation cb bufferStart SMLoc =
      getAdvancedLoc (cb.Toks.getD 0 default).getLoc
        (toInt32 (usub ((SMLoc - bufferStart) % 2 ^ 32) (cb.TokOffsets.getD 0 0))) := by
  have h0 := lower_bound_le_first cb.TokOffsets hs _ hO
  simp only [translateLocation, h0, hne, if_true]

/-- C11 at an offset before the first token: on the table `[2, 6]` the offset 1
is strictly smaller than the first entry; `translateLocation` returns 5001, the
location 5002 of token 0 moved back by 1, and not the anchor location 9999.  The
anchor is what an offset above every entry (here 7) gets. -/
theorem translateLocation_before_first_token_not_anchor :
    cbLead.TokOffsets.Pairwise (· < ·) ∧ cbLead.TokOffsets ≠ [] ∧
    (1 : Nat) < cbLead.TokOffsets.getD 0 0 ∧ cbLead.Loc = 9999 ∧
    translateLocation cbLead 2000 2001 = 5001 ∧
    getAdvancedLoc (cbLead.Toks.getD 0 default).getLoc (-1) = 5001 ∧
    translateLocation cbLead 2000 2007 = 9999 := by
  refine ⟨by decide, by decide, by decide, rfl, by decide, by decide, by decide⟩

/-- C12: `handleDiagnostic` records exactly one event, the `asm_parsing_failed`
diagnostic at the translated location of `D` with the message of `D` unchanged,
hands nothing to the type checker and leaves the callback as it was. -/
theorem handleDiagnostic_relay (cb : AsmParserCallback) (D : SMDiagnostic) :
    (handleDiagnostic cb D).events =
      [Event.diagnose
        (Diag.asm_parsing_failed (translateLocation cb D.bufferStart D.Loc) D.Message)] ∧
    diagnostics (handleDiagnostic cb D).events =
      [Diag.asm_parsing_failed (translateLocation cb D.bufferStart D.Loc) D.Message] ∧
    typeChecked (handleDiagnostic cb D).events = [] ∧
    (handleDiagnostic cb D).self = cb := by
  refine ⟨rfl, rfl, rfl, rfl⟩

/-- C16: `LookupInlineAsmField` returns `false` and leaves `Offset` as it was,
`LookupInlineAsmLabel` returns the empty string; neither records an event or
changes the callback. -/
theorem unsupported_callbacks_constant (cb : AsmParserCallback) (Base Member : String)
    (Offset : Nat) (Identifier : String) (Location : Nat) (Create : Bool) :
    (LookupInlineAsmField cb Base Member Offset).ret = (false, Offset) ∧
    (LookupInlineAsmField cb Base Member Offset).events = [] ∧
    (LookupInlineAsmField cb Base Member Offset).self = cb ∧
    (LookupInlineAsmLabel cb Identifier Location Create).ret = "" ∧
    (LookupInlineAsmLabel cb Identifier Location Create).events = [] ∧
    (LookupInlineAsmLabel cb Identifier Location Create).self = cb := by
  refine ⟨rfl, rfl, rfl, rfl, rfl, rfl⟩

/-! ## `parseAsmString` -/

/-- C13: when the registry has no target for the triple, `parseAsmString`
emits exactly one `asm_target_lookup_failed` diagnostic at the location of the
asm statement with the triple, returns `true`, does not invoke the sub-parser
and leaves every output parameter as it was. -/
theorem parseAsmString_targetLookupFailure (backend : AsmBackend) (triple : String)
    (AS : AsmStmt) (callback : AsmParserCallback) (outputs : AsmOutputs)
    (h : backend.lookupTarget triple = none) :
    (parseAsmString backend triple AS callback outputs).events =
      [Event.diagnose (Diag.asm_target_lookup_failed AS.Loc triple)] ∧
    (parseAsmString backend triple AS callback outputs).failed = true ∧
    (parseAsmString backend triple AS callback outputs).subParserRuns = 0 ∧
    (parseAsmString backend triple AS callback outputs).outputs = outputs := by
  have hres : parseAsmString backend triple AS callback outputs =
      ⟨true, outputs, [Event.diagnose (Diag.asm_target_lookup_failed AS.Loc triple)], 0⟩ := by
    unfold parseAsmString
    rw [h]
  rw [hres]
  exact ⟨rfl, rfl, rfl, rfl⟩

/-- An unknown triple on a registry without targets. -/
theorem parseAsmString_targetLookupFailure_witness :
    backendNoTarget.lookupTarget "no-such-target" = none ∧
    (parseAsmString backendNoTarget "no-such-target" ⟨700, ⟨1000, 8⟩⟩ cbDemo noOutputs).events =
      [Event.diagnose (Diag.asm_target_lookup_failed 700 "no-such-target")] ∧
    (parseAsmString backendNoTarget "no-such-target" ⟨700, ⟨1000, 8⟩⟩ cbDemo noOutputs).failed
      = true ∧
    (parseAsmString backendNoTarget "no-such-target" ⟨700, ⟨1000, 8⟩⟩ cbDemo
      noOutputs).subParserRuns = 0 ∧
    (parseAsmString backendNoTarget "no-such-target" ⟨700, ⟨1000, 8⟩⟩ cbDemo noOutputs).outputs
      = noOutputs :=
  ⟨rfl, parseAsmString_targetLookupFailure backendNoTarget "no-such-target" ⟨700, ⟨1000, 8⟩⟩
    cbDemo noOutputs rfl⟩

/-- C14 (amended): when the target lookup succeeds, `parseAsmString` invokes
the entry point of the sub-parser once, hands back the output parameters and the
events the sub-parser left, and returns `false` whatever the entry point
reported; it returns the failure signal exactly when the target lookup fails. -/
theorem parseAsmString_ignores_parse_result (backend : AsmBackend) (triple : String)
    (AS : AsmStmt) (callback : AsmParserCallback) (outputs : AsmOutputs) :
    (∀ target, backend.lookupTarget triple = some target →
      (parseAsmString backend triple AS callback outputs).failed = false ∧
      (parseAsmString backend triple AS callback outputs).subParserRuns = 1 ∧
      (parseAsmString backend triple AS callback outputs).outputs =
        (backend.parseMSInlineAsm target AS callback outputs).2.1 ∧
      (parseAsmString backend triple AS callback outputs).events =
        (backend.parseMSInlineAsm target AS callback outputs).2.2) ∧
    ((parseAsmString backend triple AS callback outputs).failed = true ↔
      backend.lookupTarget triple = none) := by
  constructor
  · intro target h
    simp [parseAsmString, h]
  · cases h : backend.lookupTarget triple <;> simp [parseAsmString, h]

/-- A sub-parser that reports a fatal error: the statement still succeeds. -/
theorem parseAsmString_ignores_parse_result_witness :
    backendFatal.lookupTarget "x86_64" = some 0 ∧
    (parseAsmString backendFatal "x86_64" ⟨700, ⟨1000, 8⟩⟩ cbDemo noOutputs).failed = false ∧
    (parseAsmString backendFatal "x86_64" ⟨700, ⟨1000, 8⟩⟩ cbDemo noOutputs).subParserRuns = 1 ∧
    (parseAsmString backendFatal "x86_64" ⟨700, ⟨1000, 8⟩⟩ cbDemo noOutputs).outputs =
      (backendFatal.parseMSInlineAsm 0 ⟨700, ⟨1000, 8⟩⟩ cbDemo noOutputs).2.1 ∧
    (parseAsmString backendFatal "x86_64" ⟨700, ⟨1000, 8⟩⟩ cbDemo noOutputs).events =
      (backendFatal.parseMSInlineAsm 0 ⟨700, ⟨1000, 8⟩⟩ cbDemo noOutputs).2.2 :=
  ⟨rfl, (parseAsmString_ignores_parse_result backendFatal "x86_64" ⟨700, ⟨1000, 8⟩⟩ cbDemo
    noOutputs).1 0 rfl⟩

/-- C14 as stated fails: the target lookup succeeds, the entry point of the
sub-parser returns `true` (fatal error), and `parseAsmString` returns `false`. -/
theorem parseAsmString_fatal_error_counterexample :
    backendFatal.lookupTarget "x86_64" = some 0 ∧
    (backendFatal.parseMSInlineAsm 0 ⟨700, ⟨1000, 8⟩⟩ cbDemo noOutputs).1 = true ∧
    (parseAsmString backendFatal "x86_64" ⟨700, ⟨1000, 8⟩⟩ cbDemo noOutputs).failed = false ∧
    (parseAsmString backendFatal "x86_64" ⟨700, ⟨1000, 8⟩⟩ cbDemo noOutputs).subParserRuns = 1 := by
  refine ⟨rfl, rfl, rfl, rfl⟩

/-! ## The outcome of `LookupInlineAsmIdentifier` -/

/-- The tokens pushed by the collection loop were read from both tables: the
indices from `i` up to the number of pushed tokens are in bounds. -/
theorem collectLoop_bounds (offs : List Nat) (toks : List Token) (e : Nat) :
    ∀ (fuel i : Nat) (tmp out : List Token),
      collectLoop offs toks e fuel i tmp = Except.ok out →
      i ≤ offs.length → i ≤ toks.length →
      ∃ n, out.length = tmp.length + n ∧ i + n ≤ offs.length ∧ i + n ≤ toks.length := by
  intro fuel
  induction fuel with
  | zero =>
    intro i tmp out h h1 h2
    simp only [collectLoop, Except.ok.injEq] at h
    subst h
    exact ⟨0, rfl, h1, h2⟩
  | succ fuel ih =>
    intro i tmp out h h1 h2
    rw [collectLoop] at h
    by_cases hi : i = offs.length
    · simp only [hi, if_true, Except.ok.injEq] at h
      subst h
      exact ⟨0, rfl, h1, h2⟩
    · simp only [hi, if_false] at h
      have hio : i < offs.length := Nat.lt_of_le_of_ne h1 hi
      rw [List.getElem?_eq_getElem hio] at h
      simp only at h
      by_cases he : offs[i] ≥ e
      · simp only [he, if_true, Except.ok.injEq] at h
        subst h
        exact ⟨0, rfl, h1, h2⟩
      · simp only [he, if_false] at h
        by_cases hit : i < toks.length
        · rw [List.getElem?_eq_getElem hit] at h
          simp only at h
          obtain ⟨n, hn1, hn2, hn3⟩ := ih (i + 1) (tmp ++ [toks[i]]) out h hio hit
          refine ⟨n + 1, ?_, by omega, by omega⟩
          rw [hn1, List.length_append, List.length_singleton]
          omega
        · rw [List.getElem?_eq_none (Nat.le_of_not_lt hit)] at h
          simp at h

/-- What a successful `findTokensForString` says about its collection loop. -/
theorem findTokensForString_inv_loop (cb : AsmParserCallback) (str : StringRef)
    (tmp toks : List Token) (firstTok : Token) (f : Nat)
    (h : findTokensForString cb str tmp = Except.ok (toks, firstTok, f)) :
    f < cb.TokOffsets.length ∧ cb.Toks[f]? = some firstTok ∧
      collectLoop cb.TokOffsets cb.Toks (lastCharOffset cb str)
        (cb.TokOffsets.length - f) f tmp = Except.ok toks := by
  unfold findTokensForString at h
  by_cases hin : withinAsmString cb str
  · simp only [hin, not_true_eq_false, if_false] at h
    by_cases hr : lower_bound cb.TokOffsets (firstCharOffset cb str) < cb.TokOffsets.length
    · simp only [List.getElem?_eq_getElem hr] at h
      by_cases he : cb.TokOffsets[lower_bound cb.TokOffsets (firstCharOffset cb str)] =
          firstCharOffset cb str
      · simp only [he, ne_eq, not_true_eq_false, if_false] at h
        split at h
        · exact absurd h (by simp)
        · rename_i ft hft
          split at h
          · exact absurd h (by simp)
          · rename_i out hout
            simp only [Except.ok.injEq, Prod.mk.injEq] at h
            obtain ⟨h1, h2, h3⟩ := h
            subst h1 h2 h3
            exact ⟨hr, hft, hout⟩
      · simp [he] at h
    · rw [List.getElem?_eq_none (Nat.le_of_not_lt hr)] at h
      simp at h
  · simp [hin] at h

/-- Once the window is found and parsed the lookup succeeds: no index it reads
is out of bounds, the info is set from the parsed expression and the events are
those of the parse. -/
theorem LookupInlineAsmIdentifier_ok (cb : AsmParserCallback) (LineBuf : StringRef)
    (Info : InlineAsmIdentifierInfo) (u : Bool)
    (lineToks : List Token) (firstTok : Token) (f : Nat) (r : ParseResult)
    (hfind : findTokensForString cb LineBuf [] = Except.ok (lineToks, firstTok, f))
    (hparse : parseIdentifier lineToks firstTok 0 = Except.ok r) :
    ∃ lb, LookupInlineAsmIdentifier cb LineBuf Info u =
      Except.ok ⟨lb, InlineAsmIdentifierInfo.Var r.result true 8 8, r.events⟩ := by
  obtain ⟨hf, hft, hloop⟩ := findTokensForString_inv_loop cb LineBuf [] lineToks firstTok f hfind
  have hftl : f < cb.Toks.length := by
    obtain ⟨h, _⟩ := List.getElem?_eq_some.mp hft
    exact h
  obtain ⟨n, hn1, hn2, hn3⟩ := collectLoop_bounds cb.TokOffsets cb.Toks _ _ f [] lineToks hloop
    (Nat.le_of_lt hf) (Nat.le_of_lt hftl)
  simp only [List.length_nil, Nat.zero_add] at hn1
  by_cases hg : 0 < r.toksConsumed ∧ r.toksConsumed < lineToks.length
  · obtain ⟨hc0, hc1⟩ := hg
    have h1 : f + r.toksConsumed - 1 < cb.TokOffsets.length := by omega
    have h2 : f + r.toksConsumed - 1 < cb.Toks.length := by omega
    refine ⟨LineBuf.substr 0 (usub (uadd cb.TokOffsets[f + r.toksConsumed - 1]
      (cb.Toks[f + r.toksConsumed - 1]).getLength) cb.TokOffsets[f]), ?_⟩
    simp only [LookupInlineAsmIdentifier, hfind, hparse, hc0, hc1, and_self, if_true,
      List.getElem?_eq_getElem h1, List.getElem?_eq_getElem h2, List.getElem?_eq_getElem hf,
      fillAsmIdentifierInfo]
  · refine ⟨LineBuf, ?_⟩
    simp only [LookupInlineAsmIdentifier, hfind, hparse, hg, if_false, fillAsmIdentifierInfo]

/-- C15: for every lookup over a non-empty token window, the identifier info
is set to a variable bound to exactly the expression returned by
`parseIdentifier`, with the fixed values `true`, 8 and 8, whatever the
expression and the window and whether or not a diagnostic was emitted. -/
theorem LookupInlineAsmIdentifier_info (cb : AsmParserCallback) (LineBuf : StringRef)
    (Info : InlineAsmIdentifierInfo) (u : Bool)
    (lineToks : List Token) (firstTok : Token) (f : Nat)
    (hfind : findTokensForString cb LineBuf [] = Except.ok (lineToks, firstTok, f))
    (hne : lineToks ≠ []) :
    ∃ r res, parseIdentifier lineToks firstTok 0 = Except.ok r ∧
      LookupInlineAsmIdentifier cb LineBuf Info u = Except.ok res ∧
      res.Info = InlineAsmIdentifierInfo.Var r.result true 8 8 := by
  match lineToks, hne with
  | x :: rest, _ =>
    obtain ⟨evs, hparse⟩ := parseIdentifier_spec x rest firstTok 0
    obtain ⟨lb, hlook⟩ := LookupInlineAsmIdentifier_ok cb LineBuf Info u (x :: rest) firstTok f _
      hfind hparse
    exact ⟨_, _, hparse, hlook, rfl⟩

/-- On the demo table the line buffer `[0, 5)` holds `abc .`: the malformed
period is diagnosed and the info is still set, to the reference to `abc`. -/
theorem LookupInlineAsmIdentifier_info_witness :
    findTokensForString cbDemo ⟨1000, 5⟩ [] =
      Except.ok ([⟨tok.identifier, "abc", 5000, 3⟩, ⟨tok.period, ".", 5004, 1⟩],
        ⟨tok.identifier, "abc", 5000, 3⟩, 0) ∧
    [(⟨tok.identifier, "abc", 5000, 3⟩ : Token), ⟨tok.period, ".", 5004, 1⟩] ≠ [] ∧
    ∃ r res, parseIdentifier [⟨tok.identifier, "abc", 5000, 3⟩, ⟨tok.period, ".", 5004, 1⟩]
        ⟨tok.identifier, "abc", 5000, 3⟩ 0 = Except.ok r ∧
      LookupInlineAsmIdentifier cbDemo ⟨1000, 5⟩ InlineAsmIdentifierInfo.Invalid false =
        Except.ok res ∧
      res.Info = InlineAsmIdentifierInfo.Var r.result true 8 8 :=
  ⟨rfl, by simp,
    LookupInlineAsmIdentifier_info cbDemo ⟨1000, 5⟩ InlineAsmIdentifierInfo.Invalid false _ _ 0
      rfl (by simp)⟩

/-! ## The two type-checking phases of `parseIdentifier` -/

/-- The member-access loop hands nothing to the type checker: it emits either
nothing or a single expected-member-name diagnostic. -/
theorem memberAccessLoop_events : ∀ (n : Nat) (tmp : List Token) (result : Expr),
    tmp.length ≤ n → ∀ (res : Expr) (rem : List Token) (evs : List Event),
    memberAccessLoop result tmp = Except.ok (res, rem, evs) →
    evs = [] ∨ ∃ loc, evs = [Event.diagnose (Diag.expected_member_name loc)] := by
  intro n
  induction n with
  | zero =>
    intro tmp result hlen res rem evs h
    have : tmp = [] := List.length_eq_zero.mp (Nat.le_zero.mp hlen)
    subst this
    simp [memberAccessLoop] at h
  | succ n ih =>
    intro tmp result hlen res rem evs h
    match tmp with
    | [] => simp [memberAccessLoop] at h
    | [t0] =>
      by_cases h0 : t0.is tok.period = true
      · simp only [memberAccessLoop, h0, if_true, Except.ok.injEq, Prod.mk.injEq] at h
        exact Or.inr ⟨_, h.2.2.symm⟩
      · simp only [memberAccessLoop, h0, Bool.false_eq_true, if_false, Except.ok.injEq,
          Prod.mk.injEq] at h
        exact Or.inl h.2.2.symm
    | t0 :: t1 :: rest =>
      rw [memberAccessLoop] at h
      by_cases h0 : t0.is tok.period = true
      · simp only [h0, if_true] at h
        by_cases h1 : t1.isNot tok.identifier = true
        · simp only [h1, if_true, Except.ok.injEq, Prod.mk.injEq] at h
          exact Or.inr ⟨_, h.2.2.symm⟩
        · simp only [h1, Bool.false_eq_true, if_false] at h
          by_cases hr : rest.length < 2
          · simp only [hr, if_true, Except.ok.injEq, Prod.mk.injEq] at h
            exact Or.inl h.2.2.symm
          · simp only [hr, if_false] at h
            exact ih rest _ (by simp at hlen; omega) res rem evs h
      · simp only [h0, Bool.false_eq_true, if_false, Except.ok.injEq, Prod.mk.injEq] at h
        exact Or.inl h.2.2.symm

/-- C18: on every non-empty window the first event of `parseIdentifier` is the
type-check of the bare base reference; when the second token is a period the
type checker is invoked exactly once more, as the last event, after whatever the
member-access loop emitted (nothing or one diagnostic), on the returned
expression; otherwise it is invoked exactly once.  No other expression is
type-checked. -/
theorem parseIdentifier_two_phase (x : Token) (rest : List Token) (firstTok : Token)
    (c0 : Nat) :
    ∃ r, parseIdentifier (x :: rest) firstTok c0 = Except.ok r ∧
      r.events.head? = some (Event.typeCheckExpression (baseRef firstTok)) ∧
      ((∃ p ts, rest = p :: ts ∧ p.Kind = tok.period) →
        ∃ emitted, r.events = [Event.typeCheckExpression (baseRef firstTok)] ++ emitted ++
            [Event.typeCheckExpression r.result] ∧
          (emitted = [] ∨ ∃ loc, emitted = [Event.diagnose (Diag.expected_member_name loc)]) ∧
          typeChecked r.events = [baseRef firstTok, r.result]) ∧
      ((rest = [] ∨ ∃ p ts, rest = p :: ts ∧ p.Kind ≠ tok.period) →
        r.events = [Event.typeCheckExpression (baseRef firstTok)] ∧
        typeChecked r.events = [baseRef firstTok]) := by
  match rest with
  | [] =>
    refine ⟨⟨baseRef firstTok, deferredToksConsumed [x] [] c0,
      [Event.typeCheckExpression (baseRef firstTok)]⟩, ?_, rfl, ?_, fun _ => ⟨rfl, rfl⟩⟩
    · simp [parseIdentifier, baseRef]
    · rintro ⟨p, ts, h, _⟩
      simp at h
  | t :: ts =>
    by_cases ht : t.Kind = tok.period
    · have h2 : t.isNot tok.period = false := by simp [Token.isNot, Token.is, ht]
      obtain ⟨evs, hloop⟩ := memberAccessLoop_spec (t :: ts).length (t :: ts)
        (baseRef firstTok) (le_refl _) (by simp)
      have hev := memberAccessLoop_events (t :: ts).length (t :: ts) (baseRef firstTok)
        (le_refl _) _ _ _ hloop
      simp only [baseRef] at hloop
      refine ⟨⟨addLinks (baseRef firstTok) (t :: ts) (chainLength (t :: ts)),
        deferredToksConsumed (x :: t :: ts) ((t :: ts).drop (2 * chainLength (t :: ts))) c0,
        [Event.typeCheckExpression (baseRef firstTok)] ++ evs ++
          [Event.typeCheckExpression (addLinks (baseRef firstTok) (t :: ts)
            (chainLength (t :: ts)))]⟩, ?_, rfl, ?_, ?_⟩
      · simp [parseIdentifier, h2, hloop, baseRef]
      · intro _
        refine ⟨evs, rfl, hev, ?_⟩
        rcases hev with h | ⟨loc, h⟩ <;> subst h <;> rfl
      · rintro (h | ⟨p, ts2, h, hp⟩)
        · simp at h
        · simp only [List.cons.injEq] at h
          exact absurd (h.1 ▸ ht) hp
    · have h2 : t.isNot tok.period = true := by simp [Token.isNot, Token.is, ht]
      refine ⟨⟨baseRef firstTok, deferredToksConsumed (x :: t :: ts) (t :: ts) c0,
        [Event.typeCheckExpression (baseRef firstTok)]⟩, ?_, rfl, ?_, fun _ => ⟨rfl, rfl⟩⟩
      · simp [parseIdentifier, h2, baseRef]
      · rintro ⟨p, ts2, h, hp⟩
        simp only [List.cons.injEq] at h
        exact absurd (h.1 ▸ hp) ht

/-- The window `x . y .`: the base `x` is type-checked first, the chain `x.y`
last, and nothing in between. -/
theorem parseIdentifier_two_phase_witness :
    (∃ p ts, [tokDot1, tokY, tokDot2] = p :: ts ∧ p.Kind = tok.period) ∧
    ∃ r, parseIdentifier [tokX, tokDot1, tokY, tokDot2] tokX 0 = Except.ok r ∧
      r.events.head? = some (Event.typeCheckExpression (baseRef tokX)) ∧
      typeChecked r.events = [baseRef tokX, dotLink (baseRef tokX) tokDot1 tokY] := by
  obtain ⟨r, h1, h2, h3, _⟩ := parseIdentifier_two_phase tokX [tokDot1, tokY, tokDot2] tokX 0
  have hex : ∃ p ts, [tokDot1, tokY, tokDot2] = p :: ts ∧ p.Kind = tok.period :=
    ⟨tokDot1, [tokY, tokDot2], rfl, rfl⟩
  obtain ⟨emitted, _, _, h4⟩ := h3 hex
  have hr : r.result = dotLink (baseRef tokX) tokDot1 tokY := by
    have : parseIdentifier [tokX, tokDot1, tokY, tokDot2] tokX 0 =
        Except.ok ⟨dotLink (baseRef tokX) tokDot1 tokY, 3,
          [Event.typeCheckExpression (baseRef tokX),
           Event.typeCheckExpression (dotLink (baseRef tokX) tokDot1 tokY)]⟩ := rfl
    rw [this] at h1
    rw [← Except.ok.inj h1]
  exact ⟨hex, r, h1, h2, hr ▸ h4⟩

/-! ## `performSubmoduleCreation` -/

theorem mem_firstOccurrences (m : String) : ∀ (l : List String),
    m ∈ firstOccurrences l ↔ m ∈ l := by
  intro l
  induction l with
  | nil => simp [firstOccurrences]
  | cons a l ih =>
    simp only [firstOccurrences, List.mem_cons, List.mem_filter, decide_eq_true_eq, ih]
    constructor
    · rintro (h | ⟨h, _⟩)
      · exact Or.inl h
      · exact Or.inr h
    · rintro (h | h)
      · exact Or.inl h
      · by_cases hma : m = a
        · exact Or.inl hma
        · exact Or.inr ⟨h, hma⟩

theorem nodup_firstOccurrences : ∀ (l : List String), (firstOccurrences l).Nodup := by
  intro l
  induction l with
  | nil => simp [firstOccurrences]
  | cons a l ih =>
    simp only [firstOccurrences, List.nodup_cons, List.mem_filter, decide_eq_true_eq]
    exact ⟨fun h => h.2 rfl, ih.filter _⟩

theorem firstOccurrences_snoc (n : String) : ∀ (l : List String),
    firstOccurrences (l ++ [n]) =
      if n ∈ l then firstOccurrences l else firstOccurrences l ++ [n] := by
  intro l
  induction l with
  | nil => simp [firstOccurrences]
  | cons a l ih =>
    have e1 : firstOccurrences (a :: (l ++ [n])) =
        a :: (firstOccurrences (l ++ [n])).filter (fun m => decide (m ≠ a)) := rfl
    have e2 : firstOccurrences (a :: l) =
        a :: (firstOccurrences l).filter (fun m => decide (m ≠ a)) := rfl
    rw [List.cons_append, e1, e2, ih]
    by_cases hn : n ∈ l
    · simp [hn]
    · by_cases hna : n = a
      · subst hna
        simp [hn, List.filter_append]
      · have hna2 : ¬ a = n := fun h => hna h.symm
        simp [hn, hna, hna2, List.filter_append]

theorem filesOf_snoc (done : List FileUnit) (f : FileUnit) (n : String) :
    filesOf (done ++ [f]) n =
      filesOf done n ++ (if leadingSubmodule f = some n then [f] else []) := by
  by_cases h : leadingSubmodule f = some n <;> simp [filesOf, List.filter_append, h]

theorem filesOf_eq_nil (done : List FileUnit) (n : String)
    (h : n ∉ done.filterMap leadingSubmodule) : filesOf done n = [] := by
  simp only [filesOf, List.filter_eq_nil_iff, decide_eq_true_eq]
  intro g hg hk
  exact h (List.mem_filterMap.mpr ⟨g, hg, hk⟩)

theorem submodulesOf_names (module : ModuleDecl) (files : List FileUnit) :
    (submodulesOf module files).map Submodule.Name =
      firstOccurrences (files.filterMap leadingSubmodule) := by
  simp [submodulesOf, List.map_map, Function.comp_def]

theorem any_submodulesOf (module : ModuleDecl) (done : List FileUnit) (n : String) :
    (submodulesOf module done).any (fun s => decide (s.Name = n)) = true ↔
      n ∈ done.filterMap leadingSubmodule := by
  simp only [submodulesOf, List.any_eq_true, List.mem_map, decide_eq_true_eq]
  constructor
  · rintro ⟨s, ⟨m, hm, rfl⟩, hs⟩
    simp only at hs
    subst hs
    exact (mem_firstOccurrences m _).mp hm
  · intro h
    exact ⟨_, ⟨n, (mem_firstOccurrences n _).mpr h, rfl⟩, rfl⟩

theorem submodulesOf_snoc_none (module : ModuleDecl) (done : List FileUnit) (f : FileUnit)
    (hk : leadingSubmodule f = none) :
    submodulesOf module (done ++ [f]) = submodulesOf module done := by
  simp only [submodulesOf, List.filterMap_append, List.filterMap_cons_none hk,
    List.filterMap_nil, List.append_nil]
  apply List.map_congr_left
  intro n _
  simp [filesOf_snoc, hk]

theorem submodulesOf_snoc_old (module : ModuleDecl) (done : List FileUnit) (f : FileUnit)
    (n : String) (hk : leadingSubmodule f = some n)
    (hold : n ∈ done.filterMap leadingSubmodule) :
    submodulesOf module (done ++ [f]) = addFileTo (submodulesOf module done) n f := by
  simp only [submodulesOf, List.filterMap_append, List.filterMap_cons_some hk,
    List.filterMap_nil, firstOccurrences_snoc, hold, if_true, addFileTo, List.map_map]
  apply List.map_congr_left
  intro m _
  by_cases hmn : m = n
  · subst hmn
    simp [filesOf_snoc, hk]
  · have hnm : ¬ n = m := fun h => hmn h.symm
    simp [filesOf_snoc, hk, hmn, hnm]

theorem submodulesOf_snoc_new (module : ModuleDecl) (done : List FileUnit) (f : FileUnit)
    (n : String) (hk : leadingSubmodule f = some n)
    (hnew : n ∉ done.filterMap leadingSubmodule) :
    submodulesOf module (done ++ [f]) =
      submodulesOf module done ++ [⟨n, module.ResilienceStrategy, [f]⟩] := by
  simp only [submodulesOf, List.filterMap_append, List.filterMap_cons_some hk,
    List.filterMap_nil, firstOccurrences_snoc, hnew, if_false, List.map_append, List.map_cons,
    List.map_nil]
  congr 1
  · apply List.map_congr_left
    intro m hm
    have hmn : ¬ n = m := by
      intro h
      subst h
      exact hnew ((mem_firstOccurrences n _).mp hm)
    simp [filesOf_snoc, hk, hmn]
  · simp [filesOf_snoc, hk, filesOf_eq_nil done n hnew]

theorem mainFilesOf_snoc (done : List FileUnit) (f : FileUnit) :
    mainFilesOf (done ++ [f]) =
      if leadingSubmodule f = none then mainFilesOf done ++ [f] else mainFilesOf done := by
  by_cases h : leadingSubmodule f = none <;> simp [mainFilesOf, List.filter_append, h]

/-- A run of declarations without a submodule declaration is skipped. -/
theorem scanTopLevelDecls_skip (module : ModuleDecl) (file : FileUnit) :
    ∀ (decls : List Decl) (i : Nat) (b : Bool) (subs : List Submodule)
      (rp : List (FileUnit × String)),
      (∀ d ∈ decls, d.isSubmoduleDecl = false) →
      scanTopLevelDecls module file decls i b subs rp = DeclScan.finished b subs rp := by
  intro decls
  induction decls with
  | nil => intro i b subs rp _; rfl
  | cons d ds ih =>
    intro i b subs rp h
    cases d with
    | SubmoduleDecl name loc =>
      have := h (Decl.SubmoduleDecl name loc) (List.mem_cons_self _ _)
      simp [Decl.isSubmoduleDecl] at this
    | other loc =>
      rw [scanTopLevelDecls]
      exact ih (i + 1) b subs rp (fun d hd => h d (List.mem_cons_of_mem _ hd))

theorem not_misplaced_iff (f : FileUnit) :
    ¬ hasMisplacedSubmoduleDecl f ↔ ∀ d ∈ f.topLevelDecls.tail, d.isSubmoduleDecl = false := by
  simp [hasMisplacedSubmoduleDecl]

/-- The scan of one file without a misplaced submodule declaration. -/
theorem scanTopLevelDecls_file (module : ModuleDecl) (f : FileUnit)
    (subs : List Submodule) (rp : List (FileUnit × String))
    (hm : ¬ hasMisplacedSubmoduleDecl f) :
    (leadingSubmodule f = none →
      scanTopLevelDecls module f f.topLevelDecls 0 false subs rp =
        DeclScan.finished false subs rp) ∧
    (∀ n, leadingSubmodule f = some n →
      subs.any (fun s => decide (s.Name = n)) = true →
      scanTopLevelDecls module f f.topLevelDecls 0 false subs rp =
        DeclScan.finished true (addFileTo subs n f) rp) ∧
    (∀ n, leadingSubmodule f = some n →
      subs.any (fun s => decide (s.Name = n)) = false →
      scanTopLevelDecls module f f.topLevelDecls 0 false subs rp =
        DeclScan.finished true (subs ++ [⟨n, module.ResilienceStrategy, [f]⟩])
          (rp ++ [(f, n)])) := by
  rw [not_misplaced_iff] at hm
  cases hd : f.topLevelDecls with
  | nil =>
    refine ⟨fun _ => rfl, ?_, ?_⟩ <;> intro n hk <;> simp [leadingSubmodule, hd] at hk
  | cons d ds =>
    rw [hd] at hm
    simp only [List.tail_cons] at hm
    cases d with
    | other loc =>
      refine ⟨fun _ => ?_, ?_, ?_⟩
      · rw [scanTopLevelDecls]
        exact scanTopLevelDecls_skip module f ds 1 false subs rp hm
      · intro n hk; simp [leadingSubmodule, hd] at hk
      · intro n hk; simp [leadingSubmodule, hd] at hk
    | SubmoduleDecl name loc =>
      refine ⟨fun hk => ?_, ?_, ?_⟩
      · simp [leadingSubmodule, hd] at hk
      · intro n hk hany
        simp only [leadingSubmodule, hd, Option.some.injEq] at hk
        subst hk
        rw [scanTopLevelDecls]
        simp [hany]
      · intro n hk hany
        simp only [leadingSubmodule, hd, Option.some.injEq] at hk
        subst hk
        rw [scanTopLevelDecls]
        simp only [ne_eq, not_true_eq_false, if_false, hany, Bool.false_eq_true]
        exact scanTopLevelDecls_skip module f ds 1 true _ _ hm

/-- The loop over the files, when no file has a misplaced submodule
declaration: started from the grouping of the files `done`, it ends with the
grouping of `done ++ files`. -/
theorem scanFiles_spec (module : ModuleDecl) : ∀ (files done : List FileUnit)
    (rp : List (FileUnit × String)), (∀ f ∈ files, ¬ hasMisplacedSubmoduleDecl f) →
    ∃ rp1, scanFiles module files (mainFilesOf done) (submodulesOf module done) rp =
      FileScan.finished (mainFilesOf (done ++ files)) (submodulesOf module (done ++ files))
        rp1 := by
  intro files
  induction files with
  | nil => intro done rp _; exact ⟨rp, by simp [scanFiles]⟩
  | cons f fs ih =>
    intro done rp h
    have hf := h f (List.mem_cons_self _ _)
    have hfs : ∀ g ∈ fs, ¬ hasMisplacedSubmoduleDecl g :=
      fun g hg => h g (List.mem_cons_of_mem _ hg)
    obtain ⟨h1, h2, h3⟩ := scanTopLevelDecls_file module f (submodulesOf module done) rp hf
    have happ : done ++ f :: fs = (done ++ [f]) ++ fs := by simp
    rw [happ, scanFiles]
    cases hk : leadingSubmodule f with
    | none =>
      rw [h1 hk]
      simp only [Bool.false_eq_true, if_false]
      have e1 : mainFilesOf done ++ [f] = mainFilesOf (done ++ [f]) := by
        rw [mainFilesOf_snoc, if_pos hk]
      rw [e1, ← submodulesOf_snoc_none module done f hk]
      exact ih (done ++ [f]) rp hfs
    | some n =>
      have e1 : mainFilesOf done = mainFilesOf (done ++ [f]) := by
        rw [mainFilesOf_snoc, if_neg (by simp [hk])]
      by_cases hold : n ∈ done.filterMap leadingSubmodule
      · rw [h2 n hk ((any_submodulesOf module done n).mpr hold)]
        simp only [if_true]
        rw [e1, ← submodulesOf_snoc_old module done f n hk hold]
        exact ih (done ++ [f]) rp hfs
      · have hany : (submodulesOf module done).any (fun s => decide (s.Name = n)) = false := by
          rw [Bool.eq_false_iff]
          exact fun hc => hold ((any_submodulesOf module done n).mp hc)
        rw [h3 n hk hany]
        simp only [if_true]
        rw [e1, ← submodulesOf_snoc_new module done f n hk hold]
        exact ih (done ++ [f]) _ hfs

theorem addFileTo_of_not_mem (n : String) (f : FileUnit) : ∀ (subs : List Submodule),
    n ∉ subs.map Submodule.Name → addFileTo subs n f = subs := by
  intro subs
  induction subs with
  | nil => intro _; rfl
  | cons s ss ih =>
    intro h
    simp only [List.map_cons, List.mem_cons, not_or] at h
    have hs : ¬ s.Name = n := fun e => h.1 e.symm
    have := ih h.2
    simp only [addFileTo] at this ⊢
    simp [hs, this]

/-- Adding a file to the one submodule named `n` adds it once to the files of
all submodules. -/
theorem addFileTo_flatMap_perm (n : String) (f : FileUnit) : ∀ (subs : List Submodule),
    (subs.map Submodule.Name).Nodup → n ∈ subs.map Submodule.Name →
    ((addFileTo subs n f).flatMap Submodule.Files).Perm
      (subs.flatMap Submodule.Files ++ [f]) := by
  intro subs
  induction subs with
  | nil => intro _ h; simp at h
  | cons s ss ih =>
    intro hnd hmem
    simp only [List.map_cons, List.nodup_cons] at hnd
    by_cases hs : s.Name = n
    · have hnot : n ∉ ss.map Submodule.Name := hs ▸ hnd.1
      have e : addFileTo (s :: ss) n f =
          { s with Files := s.Files ++ [f] } :: addFileTo ss n f := by
        simp [addFileTo, hs]
      rw [e, addFileTo_of_not_mem n f ss hnot]
      simp only [List.flatMap_cons, List.append_assoc]
      exact List.Perm.append_left _ List.perm_append_comm
    · have hmem2 : n ∈ ss.map Submodule.Name := by
        simp only [List.map_cons, List.mem_cons] at hmem
        rcases hmem with h | h
        · exact absurd h.symm hs
        · exact h
      have e : addFileTo (s :: ss) n f = s :: addFileTo ss n f := by
        simp [addFileTo, hs]
      rw [e]
      simp only [List.flatMap_cons, List.append_assoc]
      exact List.Perm.append_left _ (ih hnd.2 hmem2)

/-- The grouping is a partition: the main files and the files of the
submodules together are the files, each once. -/
theorem grouping_perm (module : ModuleDecl) (files : List FileUnit) :
    (mainFilesOf files ++ (submodulesOf module files).flatMap Submodule.Files).Perm files := by
  induction files using List.reverseRecOn with
  | nil => simp [mainFilesOf, submodulesOf, firstOccurrences]
  | append_singleton done f ih =>
    cases hk : leadingSubmodule f with
    | none =>
      rw [mainFilesOf_snoc, if_pos hk, submodulesOf_snoc_none module done f hk,
        List.append_assoc]
      exact (List.Perm.append_left _ List.perm_append_comm).trans
        (by rw [← List.append_assoc]; exact List.Perm.append_right _ ih)
    | some n =>
      rw [mainFilesOf_snoc, if_neg (by simp [hk])]
      by_cases hold : n ∈ done.filterMap leadingSubmodule
      · rw [submodulesOf_snoc_old module done f n hk hold]
        have hp := addFileTo_flatMap_perm n f (submodulesOf module done)
          (by rw [submodulesOf_names]; exact nodup_firstOccurrences _)
          (by rw [submodulesOf_names]; exact (mem_firstOccurrences n _).mpr hold)
        exact (List.Perm.append_left _ hp).trans
          (by rw [← List.append_assoc]; exact List.Perm.append_right _ ih)
      · rw [submodulesOf_snoc_new module done f n hk hold, List.flatMap_append,
          ← List.append_assoc]
        simp only [List.flatMap_cons, List.flatMap_nil, List.append_nil]
        exact List.Perm.append_right _ ih

/-- C19: in a module where no file has a submodule declaration at a top-level
position other than the first, `performSubmoduleCreation` emits no diagnostic,
leaves as the module's own files exactly the files whose first declaration is not
a submodule declaration, in order, and adds one submodule per distinct leading
submodule name, in order of first occurrence, each holding exactly the files
whose first declaration names it, in order; the main files and the files of the
added submodules together are the input files, each once. -/
theorem performSubmoduleCreation_partition (module : ModuleDecl)
    (h : ∀ f ∈ module.Files, ¬ hasMisplacedSubmoduleDecl f) :
    ∃ created,
      (performSubmoduleCreation module).diags = [] ∧
      (performSubmoduleCreation module).module.Files =
        module.Files.filter (fun f => decide (leadingSubmodule f = none)) ∧
      (performSubmoduleCreation module).module.Submodules = module.Submodules ++ created ∧
      created.map Submodule.Name = firstOccurrences (module.Files.filterMap leadingSubmodule) ∧
      (created.map Submodule.Name).Nodup ∧
      (∀ s ∈ created, s.Files =
        module.Files.filter (fun f => decide (leadingSubmodule f = some s.Name))) ∧
      ((performSubmoduleCreation module).module.Files ++
        created.flatMap Submodule.Files).Perm module.Files := by
  obtain ⟨rp, hscan⟩ := scanFiles_spec module module.Files [] [] h
  have h0 : mainFilesOf ([] : List FileUnit) = [] := rfl
  have h1 : submodulesOf module [] = [] := rfl
  rw [h0, h1, List.nil_append] at hscan
  refine ⟨submodulesOf module module.Files, ?_, ?_, ?_, submodulesOf_names module module.Files,
    ?_, ?_, ?_⟩
  · simp only [performSubmoduleCreation, hscan]
  · simp only [performSubmoduleCreation, hscan, mainFilesOf]
  · simp only [performSubmoduleCreation, hscan]
  · rw [submodulesOf_names]; exact nodup_firstOccurrences _
  · intro s hs
    simp only [submodulesOf, List.mem_map] at hs
    obtain ⟨n, _, rfl⟩ := hs
    rfl
  · have hp := grouping_perm module module.Files
    simp only [performSubmoduleCreation, hscan]
    exact hp

/-- Three files: `X`, main, `X`. -/
theorem performSubmoduleCreation_partition_witness :
    (∀ f ∈ [fileX1, fileMain, fileX3], ¬ hasMisplacedSubmoduleDecl f) ∧
    performSubmoduleCreation ⟨"M", 0, [fileX1, fileMain, fileX3], []⟩ =
      ⟨⟨"M", 0, [fileMain], [⟨"X", 0, [fileX1, fileX3]⟩]⟩, [], [(fileX1, "X")]⟩ ∧
    ∃ created,
      (performSubmoduleCreation ⟨"M", 0, [fileX1, fileMain, fileX3], []⟩).diags = [] ∧
      (performSubmoduleCreation ⟨"M", 0, [fileX1, fileMain, fileX3], []⟩).module.Files =
        [fileX1, fileMain, fileX3].filter (fun f => decide (leadingSubmodule f = none)) ∧
      (performSubmoduleCreation ⟨"M", 0, [fileX1, fileMain, fileX3], []⟩).module.Submodules =
        [] ++ created ∧
      created.map Submodule.Name =
        firstOccurrences ([fileX1, fileMain, fileX3].filterMap leadingSubmodule) ∧
      (created.map Submodule.Name).Nodup ∧
      (∀ s ∈ created, s.Files =
        [fileX1, fileMain, fileX3].filter (fun f => decide (leadingSubmodule f = some s.Name))) ∧
      ((performSubmoduleCreation ⟨"M", 0, [fileX1, fileMain, fileX3], []⟩).module.Files ++
        created.flatMap Submodule.Files).Perm [fileX1, fileMain, fileX3] :=
  ⟨by decide, by decide,
    performSubmoduleCreation_partition ⟨"M", 0, [fileX1, fileMain, fileX3], []⟩ (by decide)⟩

/-- C20 at a file whose first declaration names a submodule an earlier file
created: in the module with the files `fileX1` and `fileX2`, the declaration
`submodule Y` stands at index 2 of `fileX2`; no diagnostic is emitted and the
module is regrouped (its file list becomes empty, both files go to `X`).  The
same misplaced declaration in `fileY`, whose first declaration names a new
submodule, is diagnosed and the file list is left as it was. -/
theorem performSubmoduleCreation_misplaced_undiagnosed :
    hasMisplacedSubmoduleDecl fileX2 ∧
    performSubmoduleCreation ⟨"M", 0, [fileX1, fileX2], []⟩ =
      ⟨⟨"M", 0, [], [⟨"X", 0, [fileX1, fileX2]⟩]⟩, [], [(fileX1, "X")]⟩ ∧
    hasMisplacedSubmoduleDecl fileY ∧
    performSubmoduleCreation ⟨"M", 0, [fileX1, fileY], []⟩ =
      ⟨⟨"M", 0, [fileX1, fileY], [⟨"X", 0, [fileX1]⟩, ⟨"Y", 0, [fileY]⟩]⟩,
        [Diag.submodule_not_at_top 42], [(fileX1, "X"), (fileY, "Y")]⟩ := by
  refine ⟨by decide, by decide, by decide, by decide⟩

/-! ## Wrap-around arithmetic of `translateLocation` -/

/-- The `unsigned` difference is the integer difference modulo `2 ^ 32`. -/
theorem usub_eq_emod (a b : Nat) :
    ((usub a b : Nat) : Int) = ((a : Int) - (b : Int)) % 2 ^ 32 := by
  unfold usub
  norm_num
  omega

/-- A wrapped difference `O - t` with `O ≤ t` and `t - O < 2 ^ 31`, read as an
`int`, is the negative delta `-(t - O)`. -/
theorem toInt32_usub_of_le (O t : Nat) (hO : O < 2 ^ 32) (hle : O ≤ t)
    (hgap : t - O < 2 ^ 31) : toInt32 (usub O t) = -((t - O : Nat) : Int) := by
  unfold toInt32 usub
  norm_num at hO hgap ⊢
  split <;> omega

/-- C22: when every token's location is a common base advanced by its table
offset and the table is strictly increasing, then for every sub-parser offset
`O` not greater than the last table entry the search selects the first index `j`
with `TokOffsets[j] ≥ O`, the `unsigned` difference `O - TokOffsets[j]` is the
integer difference modulo `2 ^ 32`, and, provided `TokOffsets[j] - O < 2 ^ 31`,
its reading as an `int` is the negative delta `-(TokOffsets[j] - O)` and
`translateLocation` returns `base + O`, also for `O` strictly inside a token or
before the first token. -/
theorem translateLocation_collinear (cb : AsmParserCallback) (base : SourceLoc)
    (bufferStart SMLoc O : Nat)
    (hs : cb.TokOffsets.Pairwise (· < ·)) (hlen : cb.Toks.length = cb.TokOffsets.length)
    (hloc : ∀ i, i < cb.Toks.length →
      (cb.Toks.getD i default).getLoc = base + ((cb.TokOffsets.getD i 0 : Nat) : Int))
    (hoff : (SMLoc - bufferStart) % 2 ^ 32 = O)
    (hne : cb.TokOffsets ≠ [])
    (hO : O ≤ cb.TokOffsets.getD (cb.TokOffsets.length - 1) 0)
    (hgap : cb.TokOffsets.getD (lower_bound cb.TokOffsets O) 0 - O < 2 ^ 31) :
    lower_bound cb.TokOffsets O < cb.TokOffsets.length ∧
    O ≤ cb.TokOffsets.getD (lower_bound cb.TokOffsets O) 0 ∧
    (∀ i, i < lower_bound cb.TokOffsets O → cb.TokOffsets.getD i 0 < O) ∧
    ((usub O (cb.TokOffsets.getD (lower_bound cb.TokOffsets O) 0) : Nat) : Int) =
      ((O : Int) - ((cb.TokOffsets.getD (lower_bound cb.TokOffsets O) 0 : Nat) : Int)) % 2 ^ 32 ∧
    toInt32 (usub O (cb.TokOffsets.getD (lower_bound cb.TokOffsets O) 0)) =
      -((cb.TokOffsets.getD (lower_bound cb.TokOffsets O) 0 - O : Nat) : Int) ∧
    translateLocation cb bufferStart SMLoc = base + (O : Int) := by
  obtain ⟨hr, hlo, hhi⟩ := lower_bound_spec cb.TokOffsets O hs
  have hpos : 0 < cb.TokOffsets.length := List.length_pos.mpr hne
  have hj : lower_bound cb.TokOffsets O < cb.TokOffsets.length := by
    by_contra hcon
    have hlast := hlo (cb.TokOffsets.length - 1) (by omega)
    omega
  have hge := hhi _ (le_refl _) hj
  have hO32 : O < 2 ^ 32 := by
    rw [← hoff]; exact Nat.mod_lt _ (by norm_num)
  have hint := toInt32_usub_of_le O _ hO32 hge hgap
  refine ⟨hj, hge, hlo, usub_eq_emod _ _, hint, ?_⟩
  have hjt : lower_bound cb.TokOffsets O < cb.Toks.length := by omega
  have h1 : translateLocation cb bufferStart SMLoc =
      getAdvancedLoc (cb.Toks.getD (lower_bound cb.TokOffsets O) default).getLoc
        (toInt32 (usub O (cb.TokOffsets.getD (lower_bound cb.TokOffsets O) 0))) := by
    simp only [translateLocation, hoff, hjt, if_true]
  rw [h1, hint, hloc _ hjt, getAdvancedLoc]
  have harith : ∀ (b : Int) (t o : Nat), o ≤ t →
      b + (t : Int) + -((t - o : Nat) : Int) = b + (o : Int) := by
    intro b t o h
    omega
  exact harith base _ _ hge

/-- On the demo table `[0, 4, 5]` with locations 5000, 5004, 5005 the offset 2,
strictly inside token 0, is translated through token 1 to 5002; on the table
`[2, 6]` with locations 5002, 5006 the offset 1, before the first token, is
translated through token 0 to 5001. -/
theorem translateLocation_collinear_witness :
    (cbDemo.TokOffsets.Pairwise (· < ·) ∧ cbDemo.Toks.length = cbDemo.TokOffsets.length ∧
      (∀ i, i < cbDemo.Toks.length →
        (cbDemo.Toks.getD i default).getLoc = 5000 + ((cbDemo.TokOffsets.getD i 0 : Nat) : Int)) ∧
      lower_bound cbDemo.TokOffsets 2 = 1 ∧
      toInt32 (usub 2 (cbDemo.TokOffsets.getD (lower_bound cbDemo.TokOffsets 2) 0)) =
        -((cbDemo.TokOffsets.getD (lower_bound cbDemo.TokOffsets 2) 0 - 2 : Nat) : Int) ∧
      translateLocation cbDemo 2000 2002 = 5000 + ((2 : Nat) : Int)) ∧
    (lower_bound cbLead.TokOffsets 1 = 0 ∧
      translateLocation cbLead 2000 2001 = 5000 + ((1 : Nat) : Int)) :=
  ⟨⟨by decide, rfl, by decide, by decide,
      (translateLocation_collinear cbDemo 5000 2000 2002 2 (by decide) rfl (by decide)
        (by decide) (by decide) (by decide) (by decide)).2.2.2.2.1,
      (translateLocation_collinear cbDemo 5000 2000 2002 2 (by decide) rfl (by decide)
        (by decide) (by decide) (by decide) (by decide)).2.2.2.2.2⟩,
    by decide,
    (translateLocation_collinear cbLead 5000 2000 2001 1 (by decide) rfl (by decide)
      (by decide) (by decide) (by decide) (by decide)).2.2.2.2.2⟩

/-! ## Index safety of an identifier lookup -/

/-- In an assembly text shorter than `2 ^ 32` bytes, a non-empty sub-string has
its start offset below its end offset. -/
theorem offsets_lt_of_nonempty (cb : AsmParserCallback) (str : StringRef)
    (hin : withinAsmString cb str) (hpos : 0 < str.Length)
    (hsize : cb.AsmString.Length < 2 ^ 32) :
    firstCharOffset cb str < lastCharOffset cb str := by
  obtain ⟨h1, h2⟩ := hin
  simp only [StringRef.begin, StringRef.end_] at h1 h2
  simp only [firstCharOffset, lastCharOffset, StringRef.begin, StringRef.end_]
  norm_num at hsize ⊢
  omega

/-- C21: with a token list as long as the strictly increasing offset table and
a non-empty sub-range `LineBuf` of the assembly text that starts on the boundary
of token `f`, the window built by `findTokensForString` is non-empty, its first
element is `Toks[f]`, the first token handed to `parseIdentifier`, and its
elements are `Toks[f], Toks[f + 1], …`; no read of `findTokensForString`,
`parseIdentifier` or `LookupInlineAsmIdentifier` is out of bounds (all three
return a result): the second token is read only from a window of at least two
tokens, the member-access loop returns with a remaining window that is the
initial one less an even number of tokens, and `firstTokIndex + consumed - 1`
indexes both tables whenever `0 < consumed < window size`. -/
theorem LookupInlineAsmIdentifier_index_safety (cb : AsmParserCallback)
    (hs : cb.TokOffsets.Pairwise (· < ·)) (hlen : cb.Toks.length = cb.TokOffsets.length)
    (LineBuf : StringRef) (Info : InlineAsmIdentifierInfo) (u : Bool)
    (f : Nat) (hf : f < cb.TokOffsets.length)
    (hin : withinAsmString cb LineBuf)
    (hb : firstCharOffset cb LineBuf = cb.TokOffsets.getD f 0)
    (hne : firstCharOffset cb LineBuf < lastCharOffset cb LineBuf) :
    ∃ lineToks firstTok r res,
      findTokensForString cb LineBuf [] = Except.ok (lineToks, firstTok, f) ∧
      lineToks ≠ [] ∧ lineToks[0]? = some firstTok ∧ cb.Toks[f]? = some firstTok ∧
      (∀ n, n < lineToks.length →
        lineToks[n]? = cb.Toks[f + n]? ∧ f + n < cb.Toks.length ∧
        f + n < cb.TokOffsets.length) ∧
      parseIdentifier lineToks firstTok 0 = Except.ok r ∧
      (lineToks.length ≠ 1 → 1 < lineToks.length) ∧
      (lineToks.tail ≠ [] → ∃ built emitted k,
        memberAccessLoop (baseRef firstTok) lineToks.tail =
          Except.ok (built, lineToks.tail.drop (2 * k), emitted) ∧
        2 * k ≤ lineToks.tail.length) ∧
      (0 < r.toksConsumed → r.toksConsumed < lineToks.length →
        f + r.toksConsumed - 1 < cb.TokOffsets.length ∧
        f + r.toksConsumed - 1 < cb.Toks.length) ∧
      LookupInlineAsmIdentifier cb LineBuf Info u = Except.ok res := by
  obtain ⟨j, hfj, hj, hrun, hstop⟩ :=
    stop_exists cb.TokOffsets hs (lastCharOffset cb LineBuf) f (Nat.le_of_lt hf)
  have hfind := findTokensForString_ok cb hs hlen LineBuf [] f hf hin hb j hfj hj hrun hstop
  simp only [List.nil_append] at hfind
  have hlt : f < j := by
    by_contra hcon
    have hjf : j = f := by omega
    have := hstop (by omega)
    rw [hjf] at this
    omega
  have hft : f < cb.Toks.length := by omega
  have hL : ((cb.Toks.drop f).take (j - f)).length = j - f := by
    simp only [List.length_take, List.length_drop]
    omega
  have hLne : (cb.Toks.drop f).take (j - f) ≠ [] := by
    intro h
    rw [h] at hL
    simp at hL
    omega
  obtain ⟨x, rest, hx⟩ := List.exists_cons_of_ne_nil hLne
  obtain ⟨evs, hparse⟩ := parseIdentifier_spec x rest (cb.Toks.getD f default) 0
  rw [← hx] at hparse
  obtain ⟨lb, hlook⟩ := LookupInlineAsmIdentifier_ok cb LineBuf Info u _ _ f _ hfind hparse
  have hpos : ∀ n, n < ((cb.Toks.drop f).take (j - f)).length →
      ((cb.Toks.drop f).take (j - f))[n]? = cb.Toks[f + n]? ∧ f + n < cb.Toks.length ∧
      f + n < cb.TokOffsets.length := by
    intro n hn
    rw [hL] at hn
    refine ⟨?_, by omega, by omega⟩
    rw [List.getElem?_take_of_lt hn, List.getElem?_drop]
  refine ⟨_, _, _, _, hfind, hLne, ?_, ?_, hpos, hparse, ?_, ?_, ?_, hlook⟩
  · have h0 := (hpos 0 (by rw [hL]; omega)).1
    rw [h0, Nat.add_zero, List.getElem?_eq_getElem hft, List.getD_eq_getElem _ _ hft]
  · rw [List.getElem?_eq_getElem hft, List.getD_eq_getElem _ _ hft]
  · intro h1
    rw [hL] at h1 ⊢
    omega
  · intro htail
    obtain ⟨emitted, hloop⟩ := memberAccessLoop_spec _ ((cb.Toks.drop f).take (j - f)).tail
      (baseRef (cb.Toks.getD f default)) (le_refl _) htail
    exact ⟨_, emitted, _, hloop, chainLength_le _ _ (le_refl _)⟩
  · intro _ hc
    rw [hL] at hc
    omega

/-- On the demo table the line buffer `[0, 8)` starts on the boundary of token 0
and holds the three tokens `abc . de`. -/
theorem LookupInlineAsmIdentifier_index_safety_witness :
    cbDemo.TokOffsets.Pairwise (· < ·) ∧ cbDemo.Toks.length = cbDemo.TokOffsets.length ∧
    0 < cbDemo.TokOffsets.length ∧ withinAsmString cbDemo ⟨1000, 8⟩ ∧
    firstCharOffset cbDemo ⟨1000, 8⟩ = cbDemo.TokOffsets.getD 0 0 ∧
    firstCharOffset cbDemo ⟨1000, 8⟩ < lastCharOffset cbDemo ⟨1000, 8⟩ ∧
    ∃ lineToks firstTok r res,
      findTokensForString cbDemo ⟨1000, 8⟩ [] = Except.ok (lineToks, firstTok, 0) ∧
      lineToks ≠ [] ∧ lineToks[0]? = some firstTok ∧ cbDemo.Toks[0]? = some firstTok ∧
      (∀ n, n < lineToks.length →
        lineToks[n]? = cbDemo.Toks[0 + n]? ∧ 0 + n < cbDemo.Toks.length ∧
        0 + n < cbDemo.TokOffsets.length) ∧
      parseIdentifier lineToks firstTok 0 = Except.ok r ∧
      (lineToks.length ≠ 1 → 1 < lineToks.length) ∧
      (lineToks.tail ≠ [] → ∃ built emitted k,
        memberAccessLoop (baseRef firstTok) lineToks.tail =
          Except.ok (built, lineToks.tail.drop (2 * k), emitted) ∧
        2 * k ≤ lineToks.tail.length) ∧
      (0 < r.toksConsumed → r.toksConsumed < lineToks.length →
        0 + r.toksConsumed - 1 < cbDemo.TokOffsets.length ∧
        0 + r.toksConsumed - 1 < cbDemo.Toks.length) ∧
      LookupInlineAsmIdentifier cbDemo ⟨1000, 8⟩ InlineAsmIdentifierInfo.Invalid false =
        Except.ok res :=
  ⟨by decide, rfl, by decide, by decide, by decide, by decide,
    LookupInlineAsmIdentifier_index_safety cbDemo (by decide) rfl ⟨1000, 8⟩
      InlineAsmIdentifierInfo.Invalid false 0 (by decide) (by decide) (by decide) (by decide)⟩

end AsmBridge
